import Mathlib

/-!
Verification development for the incremental mirroring crawler
(ghost-static-site-generator).

The TypeScript sources are shallowly embedded: JavaScript strings are
modelled as lists of characters (`Str`), the WHATWG URL object as a
structure of components, node path helpers as list functions, and the
stateful crawler as an explicit state transformer driven by an
environment that supplies the collaborators (fetcher, disk, parser,
loaded graph caches).  Each embedded definition cites the source file
and lines it is translated from.
-/

set_option maxHeartbeats 1000000

/-- JavaScript strings, modelled as lists of characters. -/
abbrev Str : Type := List Char

/-- Shorthand for writing string constants of the model. -/
def strOf (s : String) : Str := s.data

/-- JS String.startsWith. -/
def startsWithS (s pat : Str) : Bool := pat.isPrefixOf s

/-- JS String.endsWith. -/
def endsWithS (s pat : Str) : Bool := pat.isSuffixOf s

/-- JS String.includes. -/
def containsS (s pat : Str) : Bool :=
  match s with
  | [] => pat.isEmpty
  | c :: t => pat.isPrefixOf (c :: t) || containsS t pat

/-- JS String.lastIndexOf for a single character, as an Option
(none models the -1 result). -/
def lastIdxOf (s : Str) (c : Char) : Option Nat :=
  match s.reverse.findIdx? (· = c) with
  | none => none
  | some i => some (s.length - 1 - i)

/-- JS String.toLowerCase (sufficient for the ASCII inputs used). -/
def lowerS (s : Str) : Str := s.map Char.toLower

/-- JS String.split on a separator character. -/
def splitOnC (c : Char) (s : Str) : List Str :=
  match s with
  | [] => [[]]
  | a :: t =>
    let r := splitOnC c t
    if a = c then [] :: r
    else
      match r with
      | [] => [[a]]
      | h :: t2 => (a :: h) :: t2

/-- Scanning loop of the global literal replace; every iteration
consumes at least one character of s, so fuel equal to the length of s
makes the fuel-out branch unreachable. -/
def replaceSubAux (pat repl : Str) : Nat → Str → Str
  | 0, s => s
  | fuel + 1, s =>
    if pat.isPrefixOf s && !pat.isEmpty then
      repl ++ replaceSubAux pat repl fuel (s.drop pat.length)
    else
      match s with
      | [] => []
      | c :: t => c :: replaceSubAux pat repl fuel t

/-- JS String.replace with a global literal pattern: replace every
non-overlapping occurrence, scanning left to right and resuming after
each replacement. -/
def replaceSub (pat repl s : Str) : Str := replaceSubAux pat repl s.length s

/-- Array.from(new Set(xs)): keep first occurrences, in insertion
order. -/
def dedupFirst (xs : List Str) : List Str :=
  xs.foldl (fun acc x => if x ∈ acc then acc else acc ++ [x]) []

/-- JS Set.add: append if absent (sets preserve insertion order). -/
def setAdd (xs : List Str) (x : Str) : List Str :=
  if x ∈ xs then xs else xs ++ [x]

/-- JS Set.delete. -/
def setDel (xs : List Str) (x : Str) : List Str :=
  xs.filter (fun y => !(y == x))

/-- JS Map lookup (first binding wins; bindings are kept unique). -/
def assocFind {α : Type} (m : List (Str × α)) (k : Str) : Option α :=
  match m with
  | [] => none
  | (k2, v) :: t => if k2 = k then some v else assocFind t k

/-- JS Map.set: replace in place, else append (insertion order kept). -/
def assocSet {α : Type} (m : List (Str × α)) (k : Str) (v : α) : List (Str × α) :=
  match m with
  | [] => [(k, v)]
  | (k2, v2) :: t => if k2 = k then (k2, v) :: t else (k2, v2) :: assocSet t k v

/-! ## node path helpers (posix) -/

/-- The basename portion the node path functions scan: ignore trailing
slashes, then take back to the previous slash. -/
def extBase (s : Str) : Str :=
  ((s.reverse.dropWhile (· = '/')).takeWhile (· ≠ '/')).reverse

/-- node path.extname: the suffix of the basename from its last dot,
empty when the basename has no dot, starts with its only dot, or is
all dots. -/
def extnameP (s : Str) : Str :=
  let b := extBase s
  match lastIdxOf b '.' with
  | none => []
  | some j =>
    if j = 0 then []
    else if b.all (· = '.') then []
    else b.drop j

/-- node path.basename(p, ext): the basename, with ext stripped when it
is a proper suffix. -/
def basenameP (s ext : Str) : Str :=
  let b := extBase s
  if !ext.isEmpty && ext.isSuffixOf b && !(b == ext) then b.take (b.length - ext.length) else b

/-- node path.dirname for the relative paths the crawler builds. -/
def dirnameP (s : Str) : Str :=
  let t := (s.reverse.dropWhile (· = '/')).reverse
  match lastIdxOf t '/' with
  | none => ['.']
  | some 0 => ['/']
  | some i => t.take i

/-- node path.join of two segments; faithful for inputs that need no
dot-segment or duplicate-slash normalization, which is all the crawler
ever joins (static dir plus a relative pathname, or a dirname plus a
basename). -/
def joinP (a b : Str) : Str :=
  if a = ['.'] then b else a ++ ['/'] ++ b

/-- node path.relative(root, p) for p lexically under root, the only
shape the crawler produces: findAllStaticFiles and urlToFilePath both
emit paths joined under the static root. -/
def relativeP (root p : Str) : Str :=
  if (root ++ ['/']).isPrefixOf p then p.drop (root.length + 1) else p

/-! ## The URL object -/

/-- The components the WHATWG URL object exposes, for the hierarchical
http(s) URLs the crawler handles. -/
structure JsUrl where
  scheme : Str
  host : Str
  pathRaw : Str
  search : Str
  hash : Str
deriving DecidableEq

def JsUrl.origin (u : JsUrl) : Str := u.scheme ++ strOf "://" ++ u.host

def JsUrl.href (u : JsUrl) : Str := u.origin ++ u.pathRaw ++ u.search ++ u.hash

def schemeOkChar (c : Char) : Bool := c.isAlpha || c.isDigit || c = '+' || c = '-' || c = '.'

/-- Parse a hierarchical URL string into its components, as
new URL(s) does for http(s) URLs (model: no percent-encoding or case
normalization, which the crawler inputs never trigger).  none models
the TypeError new URL throws. -/
def parseUrl (s : Str) : Option JsUrl :=
  let scheme := s.takeWhile (· ≠ ':')
  match s.dropWhile (· ≠ ':') with
  | ':' :: '/' :: '/' :: r =>
    if scheme.isEmpty || !(scheme.all schemeOkChar) then none
    else
      let host := r.takeWhile (fun c => c ≠ '/' && c ≠ '?' && c ≠ '#')
      let r2 := r.dropWhile (fun c => c ≠ '/' && c ≠ '?' && c ≠ '#')
      if host.isEmpty then none
      else
        let path := r2.takeWhile (fun c => c ≠ '?' && c ≠ '#')
        let r3 := r2.dropWhile (fun c => c ≠ '?' && c ≠ '#')
        some { scheme := scheme, host := host,
               pathRaw := if path.isEmpty then ['/'] else path,
               search := r3.takeWhile (· ≠ '#'),
               hash := r3.dropWhile (· ≠ '#') }
  | _ => none

/-- URLSearchParams has('v') / get('v') on a raw search string:
split the query on ampersands and find the first pair keyed v. -/
def getParamV (search : Str) : Option Str :=
  let qs := if startsWithS search ['?'] then search.drop 1 else search
  match (splitOnC '&' qs).find? (fun p => p.takeWhile (· ≠ '=') == ['v']) with
  | none => none
  | some p => some ((p.dropWhile (· ≠ '=')).drop 1)

/-! ## The URL/path policy of ConcurrentCrawler -/

/-- The crawler options that the policy functions read
(options.staticDir, options.sourceDomain, options.allowlist404). -/
structure CrawlCfg where
  staticDir : Str
  sourceDomain : Str
  allowlist404 : List Str := []
deriving DecidableEq

def rawSub1 : Str := strOf "content/files/"
def rawSub2 : Str := strOf "content/media/"
def rawSub3 : Str := strOf "content/images/"

/-- ConcurrentCrawler.urlToFilePath (part 006 lines 60 to 99), on a
parsed URL. -/
def urlToFilePathU (cfg : CrawlCfg) (u : JsUrl) : Str :=
  let p1 := if startsWithS u.pathRaw ['/'] then u.pathRaw.drop 1 else u.pathRaw
  let p2 := if p1.isEmpty then strOf "index.html" else p1
  let p3 := if endsWithS p2 ['/'] then p2 ++ strOf "index.html" else p2
  let p4 :=
    if (extnameP p3).isEmpty && !(startsWithS p3 rawSub1) && !(startsWithS p3 rawSub2)
        && !(startsWithS p3 rawSub3) then
      p3 ++ strOf "/index.html"
    else p3
  let p5 :=
    if !u.search.isEmpty then
      match getParamV u.search with
      | some v =>
        let ext := extnameP p4
        let base := p4.take (p4.length - ext.length)
        base ++ ['.'] ++ v ++ ext
      | none => p4
    else p4
  joinP cfg.staticDir p5

/-- ConcurrentCrawler.urlToFilePath on a URL string; none models the
TypeError thrown by new URL. -/
def urlToFilePath (cfg : CrawlCfg) (s : Str) : Option Str :=
  (parseUrl s).map (urlToFilePathU cfg)

def isHexDigitLower (c : Char) : Bool := ('a' ≤ c && c ≤ 'f') || ('0' ≤ c && c ≤ '9')

/-- The regex match of filePathToUrl on a basename, against
caret (.+) dot ([a-f0-9]+) dollar: group one is greedy, so the split
is at the last dot that is followed by a nonempty all-hex run to the
end, and the part before that dot must be nonempty. -/
def versionMatch (s : Str) : Option (Str × Str) :=
  let rs := s.reverse
  let rv := rs.takeWhile isHexDigitLower
  if rv.isEmpty then none
  else
    match rs.dropWhile isHexDigitLower with
    | '.' :: pre => if pre.isEmpty then none else some (pre.reverse, rv.reverse)
    | _ => none

/-- The ignore list of ConcurrentCrawler.filePathToUrl (part 006 lines
617 to 645), on the path already made relative to the static dir. -/
def rejectRel (rel : Str) : Bool :=
  rel == strOf "CNAME"
    || rel == strOf "404.html"
    || rel == strOf ".DS_Store"
    || rel == strOf ".gitignore"
    || rel == strOf "content/files/2024/12/deskew"
    || startsWithS rel (strOf "2026/02/01/world-history-of-value/")
    || startsWithS rel (strOf ".git/")
    || startsWithS rel (strOf "logs/")
    || (endsWithS rel (strOf ".txt") && !(containsS rel ['/']))
    || containsS rel (strOf "/.")

/-- ConcurrentCrawler.filePathToUrl (part 006 lines 611 to 686); none
is the null rejection. -/
def filePathToUrl (cfg : CrawlCfg) (filePath : Str) : Option Str :=
  let rel := relativeP cfg.staticDir filePath
  if rejectRel rel then
    none
  else
    let ext := extnameP rel
    match (if !ext.isEmpty then versionMatch (basenameP rel ext) else none) with
    | some (actualBase, version) =>
      let urlPath := joinP (dirnameP rel) (actualBase ++ ext)
      some (cfg.sourceDomain ++ ['/'] ++ urlPath ++ strOf "?v=" ++ version)
    | none =>
      let up1 :=
        if endsWithS rel (strOf "/index.html") then rel.take (rel.length - 10)
        else if rel == strOf "index.html" then ['/']
        else rel
      let up2 := if !(startsWithS up1 ['/']) then '/' :: up1 else up1
      let checkPath := if startsWithS up2 ['/'] then up2.drop 1 else up2
      let isExcluded := startsWithS checkPath rawSub1 || startsWithS checkPath rawSub2
        || startsWithS checkPath rawSub3
      let up3 :=
        if !(endsWithS up2 ['/']) && (extnameP up2).isEmpty && !isExcluded then up2 ++ ['/']
        else up2
      some (cfg.sourceDomain ++ up3)

/-- ConcurrentCrawler.normalizeUrl (part 006 lines 580 to 609); the
catch branch returns the input unchanged when parsing fails. -/
def normalizeUrl (s : Str) : Str :=
  match parseUrl s with
  | none => s
  | some u =>
    let p1 :=
      if endsWithS u.pathRaw (strOf "/index.html") then u.pathRaw.take (u.pathRaw.length - 10)
      else if u.pathRaw == strOf "/index.html" then ['/']
      else u.pathRaw
    let relPath := if startsWithS p1 ['/'] then p1.drop 1 else p1
    let hasExtension := !(extnameP p1).isEmpty
    let isExcluded := startsWithS relPath rawSub1 || startsWithS relPath rawSub2
      || startsWithS relPath rawSub3
    let p2 := if !(endsWithS p1 ['/']) && !hasExtension && !isExcluded then p1 ++ ['/'] else p1
    JsUrl.href { scheme := u.scheme, host := u.host, pathRaw := p2, search := u.search, hash := u.hash }

/-! ## RSS content normalization -/

def lbdOpen : Str := strOf "<lastBuildDate>"
def lbdClose : Str := strOf "</lastBuildDate>"

/-- The lazy regex body dot-star-question: the shortest run of
non-newline characters followed by the closing tag.  Returns the rest
after the closing tag, none when the close is not reachable without a
newline. -/
def findLbdClose (s : Str) : Option Str :=
  if lbdClose.isPrefixOf s then some (s.drop lbdClose.length)
  else
    match s with
    | [] => none
    | c :: t => if c = '\n' then none else findLbdClose t

/-- Scanning loop of the lastBuildDate blanking: scan for the open
tag; on a full lazy match emit the blank element and resume after the
match; on a failure to close, advance one character, as the regex
engine does.  Every iteration consumes at least one character, so
fuel equal to the length of the input makes the fuel-out branch
unreachable. -/
def scanLBDAux : Nat → Str → Str
  | 0, s => s
  | fuel + 1, s =>
    if lbdOpen.isPrefixOf s then
      match findLbdClose (s.drop lbdOpen.length) with
      | some rest => lbdOpen ++ lbdClose ++ scanLBDAux fuel rest
      | none =>
        match s with
        | [] => []
        | c :: t => c :: scanLBDAux fuel t
    else
      match s with
      | [] => []
      | c :: t => c :: scanLBDAux fuel t

/-- The global replace of the lazy lastBuildDate element regex with
the blank element. -/
def scanLBD (s : Str) : Str := scanLBDAux s.length s

def domainA : Str := strOf "https://blog.home.ndbroadbent.com"
def domainB : Str := strOf "https://madebynathan.com"
def domainRepl : Str := strOf "DOMAIN"

/-- ConcurrentCrawler.normalizeRSSContent (part 006 lines 145 to 154):
blank every single-line lastBuildDate element, then canonicalize the
two source domains to the token DOMAIN. -/
def normalizeRSSContent (content : Str) : Str :=
  replaceSub domainB domainRepl (replaceSub domainA domainRepl (scanLBD content))

/-! ## CacheManager (the validator cache) -/

/-- CacheManager.CacheEntry (CacheManager.ts lines 5 to 10): etag and
lastModified are string-or-null, fileHash optional. -/
structure CacheEntry where
  etag : Option Str
  lastModified : Option Str
  lastFetched : Str
  fileHash : Option Str
deriving DecidableEq

/-- A Partial CacheEntry argument of setEntry: absent or undefined
fields are none. -/
structure EntryPatch where
  etag : Option Str := none
  lastModified : Option Str := none
  lastFetched : Option Str := none
  fileHash : Option Str := none
deriving DecidableEq

/-- CacheManager.setEntry (CacheManager.ts lines 49 to 58); now is the
value of new Date().toISOString() at the call. -/
def setEntry (existing : Option CacheEntry) (p : EntryPatch) (now : Str) : CacheEntry :=
  { etag := (p.etag.orElse (fun _ => existing.bind CacheEntry.etag))
    lastModified := (p.lastModified.orElse (fun _ => existing.bind CacheEntry.lastModified))
    lastFetched := p.lastFetched.getD now
    fileHash := (p.fileHash.orElse (fun _ => existing.bind CacheEntry.fileHash)) }

structure CondHeaders where
  ifNoneMatch : Option Str
  ifModifiedSince : Option Str
deriving DecidableEq

/-- JS truthiness of a string-or-null field: null and the empty string
are both falsy. -/
def strTruthy : Option Str → Bool
  | none => false
  | some s => !s.isEmpty

/-- CacheManager.getConditionalHeaders (CacheManager.ts lines 73 to
87), as a function of the stored entry for the URL. -/
def getConditionalHeaders (entry : Option CacheEntry) : CondHeaders :=
  match entry with
  | none => { ifNoneMatch := none, ifModifiedSince := none }
  | some e =>
    { ifNoneMatch := if strTruthy e.etag then e.etag else none
      ifModifiedSince := if strTruthy e.lastModified then e.lastModified else none }

/-! ## GraphCache -/

/-- A GraphCache node (part 007 lines 125 to 130); the lastParsed
timestamp is omitted, no claim mentions it. -/
structure GraphNode where
  outLinks : List Str
  resources : List Str
deriving DecidableEq

/-- GraphCache.setNode (part 007 lines 169 to 177): upsert with
dedup. -/
def setNode (nodes : List (Str × GraphNode)) (url : Str) (outLinks resources : List Str) :
    List (Str × GraphNode) :=
  assocSet nodes url { outLinks := dedupFirst outLinks, resources := dedupFirst resources }

/-- GraphCache.getNode (part 007 lines 165 to 167). -/
def getNodeL (nodes : List (Str × GraphNode)) (url : Str) : Option GraphNode :=
  assocFind nodes url

/-- GraphCache.getChildUrls (part 007 lines 243 to 249). -/
def getChildUrls (nodes : List (Str × GraphNode)) (url : Str) : List Str :=
  match getNodeL nodes url with
  | none => []
  | some n => n.outLinks ++ n.resources

/-- GraphCache.getChildUrls against an abstract getNode lookup (the
loaded graph cache the crawler holds). -/
def getChildUrlsF (g : Str → Option GraphNode) (url : Str) : List Str :=
  match g url with
  | none => []
  | some n => n.outLinks ++ n.resources

/-- Total number of edges stored in the graph, used to bound the BFS
loop count. -/
def graphWeight (nodes : List (Str × GraphNode)) : Nat :=
  nodes.foldl (fun a kn => a + kn.2.outLinks.length + kn.2.resources.length) 0

/-- The BFS loop of GraphCache.buildDAG (part 007 lines 197 to 224);
fuel counts loop iterations, each of which pops one queue element. -/
def buildDAGAux (nodes : List (Str × GraphNode)) :
    Nat → List Str → List Str → List Str → List Str
  | 0, _, _, reach => reach
  | _ + 1, [], _, reach => reach
  | fuel + 1, url :: q, visited, reach =>
    if url ∈ visited then buildDAGAux nodes fuel q visited reach
    else
      let visited2 := visited ++ [url]
      let reach2 := reach ++ [url]
      match getNodeL nodes url with
      | some n =>
        let children := (n.outLinks ++ n.resources).filter (fun c => !(visited2.contains c))
        buildDAGAux nodes fuel (q ++ children) visited2 reach2
      | none => buildDAGAux nodes fuel q visited2 reach2

/-- GraphCache.buildDAG (part 007 lines 197 to 224): every queued URL
is popped within entry-count plus edge-count iterations, so this fuel
drains the queue. -/
def buildDAG (nodes : List (Str × GraphNode)) (entryUrls : List Str) : List Str :=
  buildDAGAux nodes (entryUrls.length + graphWeight nodes + 1) entryUrls [] []

/-! ## ConcurrentCrawler content classification helpers -/

/-- ConcurrentCrawler.isHtmlContent (part 006 lines 101 to 112); the
url argument is pre-parsed, since the crawler only reaches the check
when new URL(url) succeeds. -/
def isHtmlContentU (contentType : Option Str) (url : Option JsUrl) : Bool :=
  if (match contentType with | some ct => containsS ct (strOf "text/html") | none => false) then
    true
  else
    match url with
    | some u =>
      let e := extnameP u.pathRaw
      e.isEmpty || e == strOf ".html"
    | none => false

/-- ConcurrentCrawler.isCssContent (part 006 lines 114 to 122); the
url check is a plain string endsWith, no parsing. -/
def isCssContent (contentType : Option Str) (url : Option Str) : Bool :=
  if (match contentType with | some ct => containsS ct (strOf "text/css") | none => false) then
    true
  else
    match url with
    | some s => endsWithS s (strOf ".css")
    | none => false

/-- ConcurrentCrawler.isRSSFeed (part 006 lines 124 to 126). -/
def isRSSFeed (filePath : Str) : Bool :=
  containsS filePath (strOf "/rss/") || endsWithS filePath (strOf "/rss")

def videoExtensions : List Str :=
  [strOf ".mp4", strOf ".mov", strOf ".webm", strOf ".avi", strOf ".mkv"]

/-- ConcurrentCrawler.isVideoUrl (part 006 lines 128 to 132), on the
parsed URL. -/
def isVideoUrlU (u : JsUrl) : Bool :=
  videoExtensions.any (fun e => endsWithS (lowerS u.pathRaw) e)

/-- ConcurrentCrawler.getVideoThumbnailUrl (part 006 lines 134 to
143): replace everything from the last dot of the pathname with the
_thumb.jpg suffix.  The none branch models lastIndexOf returning -1,
where substring(0, -1) is empty. -/
def getVideoThumbnailUrlU (u : JsUrl) : Str :=
  match lastIdxOf u.pathRaw '.' with
  | none => u.origin ++ strOf "_thumb.jpg"
  | some i => u.origin ++ u.pathRaw.take i ++ strOf "_thumb.jpg"

/-- The link classification loop of crawlUrl (part 006 lines 292 to
305): hyperlink-like links versus subresources, with the derived
video thumbnail URL appended after each video subresource.  none when
new URL(link) inside isHtmlContent would throw. -/
def classifyStep (acc : List Str × List Str) (link : Str) : Option (List Str × List Str) :=
  match parseUrl link with
  | none => none
  | some u =>
    if isHtmlContentU none (some u) then some (acc.1 ++ [link], acc.2)
    else
      let rs := acc.2 ++ [link]
      let rs2 := if isVideoUrlU u then rs ++ [getVideoThumbnailUrlU u] else rs
      some (acc.1, rs2)

def classifyLinks (links : List Str) : Option (List Str × List Str) :=
  links.foldlM classifyStep ([], [])

/-! ## The crawl step -/

/-- The two shapes of a response body (result.content). -/
inductive ContentV where
  | str (s : Str)
  | buf (b : List Nat)
deriving DecidableEq

/-- JS truthiness of result.content: undefined and the empty string
are falsy, a Buffer object is always truthy. -/
def contentTruthy : Option ContentV → Bool
  | none => false
  | some (ContentV.str s) => !s.isEmpty
  | some (ContentV.buf _) => true

/-- SmartFetcher.FetchResult, the fields crawlUrl reads. -/
structure FetchResult where
  status : Nat
  content : Option ContentV := none
  contentType : Option Str := none

/-- The collaborators crawlUrl interacts with, as response oracles:
the first fetch of a URL, the unconditional refetch after clearEntry,
the disk, the loaded graph cache of the previous run, and the
FeedParser extractors. -/
structure CrawlEnv where
  fetch1 : Str → FetchResult
  fetch2 : Str → FetchResult
  existsOnDisk : Str → Bool
  readFile : Str → Str
  oldGraph : Str → Option GraphNode
  parseHtml : Str → List Str
  parseCss : Str → Str → List Str

/-- The mutable crawler state plus event logs: every URL passed to
fetcher.fetch, every cacheManager.clearEntry, every writeFileSync
under the output root, and every body handed to the extractor.
aborted records the exception thrown outside the try block. -/
structure CrawlState where
  crawled : List Str := []
  inProgress : List Str := []
  queue : List Str := []
  newGraph : List (Str × GraphNode) := []
  errors : List (Str × Nat) := []
  fetchLog : List Str := []
  clearLog : List Str := []
  writeLog : List (Str × ContentV) := []
  parseLog : List Str := []
  aborted : Bool := false

/-- ConcurrentCrawler.addError (part 006 lines 156 to 166): drop
allowlisted URLs. -/
def addError (allow : List Str) (errors : List (Str × Nat)) (url : Str) (status : Nat) :
    List (Str × Nat) :=
  if allow.any (fun pat => containsS url pat) then errors else errors ++ [(url, status)]

/-- The write-elision decision for RSS feeds inside the 200 branch of
crawlUrl (part 006 lines 255 to 268). -/
def shouldSkipWrite (env : CrawlEnv) (outputPath : Str) (content : ContentV) : Bool :=
  match content with
  | ContentV.str s =>
    isRSSFeed outputPath && env.existsOnDisk outputPath
      && (normalizeRSSContent s == normalizeRSSContent (env.readFile outputPath))
  | ContentV.buf _ => false

/-- The child-enqueue loop of crawlUrl (part 006 lines 241 to 246 and
347 to 352): queue a child unless it is already crawled or in
progress. -/
def enqueueChildren (links : List Str) (s : CrawlState) : CrawlState :=
  links.foldl
    (fun s2 c =>
      if c ∈ s2.crawled ∨ c ∈ s2.inProgress then s2
      else { s2 with queue := setAdd s2.queue c }) s

/-- ConcurrentCrawler.crawlUrl (part 006 lines 168 to 368) as a state
transformer.  aborted models the TypeError new URL can throw at line
176 outside the try block, which rejects the whole crawl; an aborted
state absorbs further steps. -/
def crawlStep (cfg : CrawlCfg) (env : CrawlEnv) (st : CrawlState) (url0 : Str) : CrawlState :=
  if st.aborted then st
  else
    let url := normalizeUrl url0
    if url ∈ st.crawled ∨ url ∈ st.inProgress then st
    else
      let st1 := { st with inProgress := setAdd st.inProgress url }
      match parseUrl url with
      | none => { st1 with aborted := true }
      | some u =>
        let outputPath := urlToFilePathU cfg u
        let result := env.fetch1 url
        let st2 := { st1 with fetchLog := st1.fetchLog ++ [url] }
        if result.status == 404 then
          { st2 with errors := addError cfg.allowlist404 st2.errors url 404,
                     crawled := setAdd st2.crawled url,
                     inProgress := setDel st2.inProgress url }
        else if !(result.status == 200) && !(result.status == 304) then
          { st2 with errors := addError cfg.allowlist404 st2.errors url result.status,
                     crawled := setAdd st2.crawled url,
                     inProgress := setDel st2.inProgress url }
        else
          let oldNode := env.oldGraph url
          if result.status == 304 then
            let st3 :=
              if !(env.existsOnDisk outputPath) then
                let stc := { st2 with clearLog := st2.clearLog ++ [url] }
                let fresh := env.fetch2 url
                let stf := { stc with fetchLog := stc.fetchLog ++ [url] }
                if fresh.status == 200 && contentTruthy fresh.content then
                  { stf with writeLog :=
                      stf.writeLog ++ [(outputPath, fresh.content.getD (ContentV.str []))] }
                else stf
              else st2
            match oldNode with
            | some n =>
              let st4 := { st3 with
                newGraph := assocSet st3.newGraph url
                  { outLinks := n.outLinks, resources := n.resources } }
              let children := getChildUrlsF env.oldGraph url
              let st5 := enqueueChildren children st4
              { st5 with crawled := setAdd st5.crawled url,
                         inProgress := setDel st5.inProgress url }
            | none =>
              { st3 with crawled := setAdd st3.crawled url,
                         inProgress := setDel st3.inProgress url }
          else
            if contentTruthy result.content then
              let content := result.content.getD (ContentV.str [])
              let st3 :=
                if shouldSkipWrite env outputPath content then st2
                else { st2 with writeLog := st2.writeLog ++ [(outputPath, content)] }
              let isStr := match content with | ContentV.str _ => true | ContentV.buf _ => false
              let branch :=
                if isHtmlContentU result.contentType (some u) && isStr then
                  match content with
                  | ContentV.str s =>
                    ([s], (classifyLinks (env.parseHtml s)).map (fun cls => (cls.1, cls.2)))
                  | ContentV.buf _ => ([], some ([], []))
                else if isCssContent result.contentType (some url) then
                  match content with
                  | ContentV.str s => ([s], some ([], env.parseCss s url))
                  | ContentV.buf _ => ([], some ([], []))
                else ([], some ([], []))
              match branch with
              | (pl, none) => { st3 with parseLog := st3.parseLog ++ pl, aborted := true }
              | (pl, some (outLinks, resources)) =>
                let st4 := { st3 with parseLog := st3.parseLog ++ pl }
                let normalizedOutLinks := dedupFirst (outLinks.map normalizeUrl)
                let normalizedResources := dedupFirst (resources.map normalizeUrl)
                let st5 := { st4 with
                  newGraph := assocSet st4.newGraph url
                    { outLinks := normalizedOutLinks, resources := normalizedResources } }
                let st6 := enqueueChildren (normalizedOutLinks ++ normalizedResources) st5
                { st6 with crawled := setAdd st6.crawled url,
                           inProgress := setDel st6.inProgress url }
            else
              { st2 with crawled := setAdd st2.crawled url,
                         inProgress := setDel st2.inProgress url }

/-- The crawl main loop (part 006 lines 383 to 398): repeatedly
snapshot the queue, clear it, and run crawlUrl on each member; the
sequential order models one admissible interleaving of the
bounded-parallel dispatch, whose per-URL membership guard is
identical.  fuel bounds the number of batches. -/
def runBatches (cfg : CrawlCfg) (env : CrawlEnv) : Nat → CrawlState → CrawlState
  | 0, st => st
  | fuel + 1, st =>
    if st.queue.isEmpty || st.aborted then st
    else
      let batch := st.queue
      let st2 := { st with queue := [] }
      runBatches cfg env fuel (batch.foldl (crawlStep cfg env) st2)

/-- ConcurrentCrawler.crawl (part 006 lines 370 to 414): normalize the
start URL, seed the queue, and run the loop. -/
def crawlRun (cfg : CrawlCfg) (env : CrawlEnv) (fuel : Nat) (startUrl : Str) : CrawlState :=
  runBatches cfg env fuel { queue := [normalizeUrl startUrl] }

/-! ## The reachability GC -/

/-- finalizeAndCleanup lines 504 to 507: write every node of the new
in-memory graph into the loaded graph cache via setNode. -/
def mergeNewGraph (oldNodes newGraph : List (Str × GraphNode)) : List (Str × GraphNode) :=
  newGraph.foldl (fun acc kn => setNode acc kn.1 kn.2.outLinks kn.2.resources) oldNodes

structure GcOutcome where
  reachable : List Str
  fileUrls : List Str
  filesToDelete : Option (List Str)
  remaining : List Str
deriving DecidableEq

/-- ConcurrentCrawler.finalizeAndCleanup (part 006 lines 500 to 554):
merge the new graph into the cache, BFS from the registered known
valid URLs, convert the files on disk to URLs, and delete the files
whose URL is not reachable.  filesToDelete is none when new URL would
throw inside urlToFilePath for some unreachable file URL, in which
case the exception aborts the method before any deletion; a deletion
whose path is not among the files fails silently (the try/catch
around unlinkSync). -/
def finalizeAndCleanup (cfg : CrawlCfg) (oldNodes newGraph : List (Str × GraphNode))
    (knownValidUrls : List Str) (staticFiles : List Str) : GcOutcome :=
  let merged := mergeNewGraph oldNodes newGraph
  let reachable := buildDAG merged knownValidUrls
  let fileUrls := dedupFirst (staticFiles.filterMap (filePathToUrl cfg))
  let toDelete := (fileUrls.filter (fun u2 => !(reachable.contains u2))).mapM (urlToFilePath cfg)
  let remaining :=
    match toDelete with
    | none => staticFiles
    | some ds => staticFiles.filter (fun f => !(ds.contains f))
  { reachable := reachable, fileUrls := fileUrls, filesToDelete := toDelete,
    remaining := remaining }

/-! ## Small facts about the set model -/

theorem mem_setAdd_self (xs : List Str) (x : Str) : x ∈ setAdd xs x := by
  unfold setAdd
  split
  · assumption
  · simp

theorem mem_setAdd_iff {xs : List Str} {x y : Str} : y ∈ setAdd xs x ↔ y ∈ xs ∨ y = x := by
  unfold setAdd
  split
  · rename_i h
    constructor
    · exact Or.inl
    · rintro (hy | rfl) <;> assumption
  · simp

/-! ## Claim C7: the setEntry upsert contract -/

/-- C7 (confirmed): for every setEntry call, etag and lastModified
equal the supplied values when supplied and otherwise fall back to the
existing entry (null when there is none), and lastFetched is the time
of the call.  The hypothesis on the lastFetched patch field reflects
the only call shapes in the repo: SmartFetcher.fetch passes
new Date().toISOString(), the value of now at the call, and
SmartFetcher.fetchAndSave omits the field. -/
theorem c7_setEntry_contract (existing : Option CacheEntry) (p : EntryPatch) (now : Str)
    (hlf : p.lastFetched = none ∨ p.lastFetched = some now) :
    ((∀ e, p.etag = some e → (setEntry existing p now).etag = some e) ∧
      (p.etag = none → (setEntry existing p now).etag = existing.bind CacheEntry.etag)) ∧
    ((∀ m, p.lastModified = some m → (setEntry existing p now).lastModified = some m) ∧
      (p.lastModified = none →
        (setEntry existing p now).lastModified = existing.bind CacheEntry.lastModified)) ∧
    (setEntry existing p now).lastFetched = now := by
  refine ⟨⟨?_, ?_⟩, ⟨?_, ?_⟩, ?_⟩
  · intro e he
    simp [setEntry, he, Option.orElse]
  · intro he
    simp [setEntry, he, Option.orElse]
  · intro m hm
    simp [setEntry, hm, Option.orElse]
  · intro hm
    simp [setEntry, hm, Option.orElse]
  · rcases hlf with h | h <;> simp [setEntry, h]

/-- Witness for C7 at a concrete call (the SmartFetcher.fetch shape,
which passes the current time explicitly). -/
theorem c7_setEntry_contract_witness :
    (setEntry none { etag := some (strOf "W/x"), lastFetched := some (strOf "T0") }
      (strOf "T0")).lastFetched = strOf "T0" :=
  (c7_setEntry_contract none
    { etag := some (strOf "W/x"), lastFetched := some (strOf "T0") }
    (strOf "T0") (Or.inr rfl)).2.2

/-! ## Claim C8: conditional headers -/

/-- C8 counterexample: an entry whose etag is the empty string is
non-null (the field type is string-or-null, and the manifest JSON on
disk can hold any string), yet getConditionalHeaders emits no
If-None-Match header, because the source tests JS truthiness, not
non-null, so the claim as stated fails. -/
theorem c8_counterexample :
    (getConditionalHeaders (some ⟨some [], none, strOf "T0", none⟩)).ifNoneMatch = none ∧
      some ([] : Str) ≠ (none : Option Str) := by
  exact ⟨rfl, by simp⟩

/-- C8 (amended): the If-None-Match header is present exactly when the
stored entry has a non-null AND nonempty etag, in which case it equals
it, and similarly If-Modified-Since for lastModified; a URL with no
entry gets neither header. -/
theorem c8_conditionalHeaders (entry : Option CacheEntry) (v : Str) :
    ((getConditionalHeaders entry).ifNoneMatch = some v ↔
      ∃ e, entry = some e ∧ e.etag = some v ∧ v ≠ []) ∧
    ((getConditionalHeaders entry).ifModifiedSince = some v ↔
      ∃ e, entry = some e ∧ e.lastModified = some v ∧ v ≠ []) := by
  cases entry with
  | none => simp [getConditionalHeaders]
  | some e =>
    constructor
    · cases he : e.etag with
      | none => simp [getConditionalHeaders, strTruthy, he]
      | some t =>
        cases t with
        | nil => simp [getConditionalHeaders, strTruthy, he]
        | cons c r =>
          simp only [getConditionalHeaders, strTruthy, he, List.isEmpty_cons, Bool.not_false,
            if_true]
          constructor
          · intro hv
            exact ⟨e, rfl, by simp [he, ← (Option.some.injEq _ _).mp hv],
              by simp [← (Option.some.injEq _ _).mp hv]⟩
          · rintro ⟨e2, he2, hv, _⟩
            have : e2 = e := (Option.some.injEq _ _).mp he2.symm
            subst this
            rw [he] at hv
            exact hv.symm ▸ rfl
    · cases he : e.lastModified with
      | none => simp [getConditionalHeaders, strTruthy, he]
      | some t =>
        cases t with
        | nil => simp [getConditionalHeaders, strTruthy, he]
        | cons c r =>
          simp only [getConditionalHeaders, strTruthy, he, List.isEmpty_cons, Bool.not_false,
            if_true]
          constructor
          · intro hv
            exact ⟨e, rfl, by simp [he, ← (Option.some.injEq _ _).mp hv],
              by simp [← (Option.some.injEq _ _).mp hv]⟩
          · rintro ⟨e2, he2, hv, _⟩
            have : e2 = e := (Option.some.injEq _ _).mp he2.symm
            subst this
            rw [he] at hv
            exact hv.symm ▸ rfl

/-! ## Claim C5: RSS write elision -/

/-! ## Facts about the child-enqueue loop -/

theorem enqueueChildren_fields (links : List Str) (s : CrawlState) :
    (enqueueChildren links s).crawled = s.crawled ∧
    (enqueueChildren links s).inProgress = s.inProgress ∧
    (enqueueChildren links s).newGraph = s.newGraph ∧
    (enqueueChildren links s).fetchLog = s.fetchLog ∧
    (enqueueChildren links s).clearLog = s.clearLog ∧
    (enqueueChildren links s).writeLog = s.writeLog ∧
    (enqueueChildren links s).parseLog = s.parseLog ∧
    (enqueueChildren links s).errors = s.errors ∧
    (enqueueChildren links s).aborted = s.aborted := by
  induction links generalizing s with
  | nil => exact ⟨rfl, rfl, rfl, rfl, rfl, rfl, rfl, rfl, rfl⟩
  | cons c t ih =>
    have hstep : enqueueChildren (c :: t) s =
        enqueueChildren t
          (if c ∈ s.crawled ∨ c ∈ s.inProgress then s
           else { s with queue := setAdd s.queue c }) := rfl
    rw [hstep]
    rcases ih (if c ∈ s.crawled ∨ c ∈ s.inProgress then s
      else { s with queue := setAdd s.queue c }) with ⟨h1, h2, h3, h4, h5, h6, h7, h8, h9⟩
    refine ⟨?_, ?_, ?_, ?_, ?_, ?_, ?_, ?_, ?_⟩
    · rw [h1]; split <;> rfl
    · rw [h2]; split <;> rfl
    · rw [h3]; split <;> rfl
    · rw [h4]; split <;> rfl
    · rw [h5]; split <;> rfl
    · rw [h6]; split <;> rfl
    · rw [h7]; split <;> rfl
    · rw [h8]; split <;> rfl
    · rw [h9]; split <;> rfl

/-! ## Claim C5: RSS write elision -/

/-- Claim-side comparator, modelled from the claim text: equality of
bodies after blanking every lastBuildDate element, and nothing else. -/
def lbdBlankEq (a b : Str) : Prop := scanLBD a = scanLBD b

def cfgW : CrawlCfg := { staticDir := strOf "static", sourceDomain := strOf "https://h" }

def bodyNewC5 : Str := strOf "<x>https://madebynathan.com</x>"
def bodyOldC5 : Str := strOf "<x>https://blog.home.ndbroadbent.com</x>"

def envC5 : CrawlEnv :=
  { fetch1 := fun _ => { status := 200, content := some (ContentV.str bodyNewC5) }
    fetch2 := fun _ => { status := 200 }
    existsOnDisk := fun _ => true
    readFile := fun _ => bodyOldC5
    oldGraph := fun _ => none
    parseHtml := fun _ => []
    parseCss := fun _ _ => [] }

/-- C5 counterexample: for an RSS output path with an existing on-disk
body, a new body that differs from it in a domain spelling only (with
no lastBuildDate element at all) is still elided, because
normalizeRSSContent also canonicalizes the two source domains; the
claim says the write is elided exactly when the bodies agree under
lastBuildDate blanking alone, so it fails here. -/
theorem c5_counterexample :
    shouldSkipWrite envC5 (strOf "p/rss/index.html") (ContentV.str bodyNewC5) = true ∧
      ¬ lbdBlankEq bodyNewC5 bodyOldC5 := by
  constructor
  · decide
  · intro h2
    have h3 : scanLBD bodyNewC5 = scanLBD bodyOldC5 := h2
    exact absurd h3 (by decide)

/-- C5 (amended): in the 200 branch, for a text body at an RSS output
path whose on-disk file exists, the write is elided exactly when the
new and existing bodies agree after blanking single-line lastBuildDate
elements AND canonicalizing the two source domains to one token, that
is, under normalizeRSSContent. -/
theorem c5_rss_write_elision (cfg : CrawlCfg) (env : CrawlEnv) (st : CrawlState) (url0 : Str)
    (hab : st.aborted = false)
    (hc : normalizeUrl url0 ∉ st.crawled) (hip : normalizeUrl url0 ∉ st.inProgress)
    (u : JsUrl) (hparse : parseUrl (normalizeUrl url0) = some u)
    (s : Str) (hst : (env.fetch1 (normalizeUrl url0)).status = 200)
    (hco : (env.fetch1 (normalizeUrl url0)).content = some (ContentV.str s))
    (hs : s ≠ [])
    (hrss : isRSSFeed (urlToFilePathU cfg u) = true)
    (hex : env.existsOnDisk (urlToFilePathU cfg u) = true) :
    (crawlStep cfg env st url0).writeLog = st.writeLog ↔
      normalizeRSSContent s = normalizeRSSContent (env.readFile (urlToFilePathU cfg u)) := by
  have hskipiff :
      shouldSkipWrite env (urlToFilePathU cfg u) (ContentV.str s) =
        (normalizeRSSContent s == normalizeRSSContent (env.readFile (urlToFilePathU cfg u))) := by
    simp [shouldSkipWrite, hrss, hex]
  have hct : contentTruthy (env.fetch1 (normalizeUrl url0)).content = true := by
    rw [hco]; simp [contentTruthy, hs]
  unfold crawlStep
  simp only [hab, Bool.false_eq_true, if_false]
  rw [if_neg (by exact fun h => h.elim hc hip)]
  rw [hparse]
  simp only [hst, hco, hct]
  norm_num
  have hct2 : contentTruthy (some (ContentV.str s)) = true := by simp [contentTruthy, hs]
  simp only [hct2, if_true]
  by_cases hskip : shouldSkipWrite env (urlToFilePathU cfg u) (ContentV.str s) = true
  · have heqn :
        normalizeRSSContent s = normalizeRSSContent (env.readFile (urlToFilePathU cfg u)) := by
      rw [hskipiff] at hskip
      exact beq_iff_eq.mp hskip
    simp only [hskip, if_true]
    split
    · simp [heqn]
    · simp [enqueueChildren_fields, heqn]
  · have hneq :
        ¬ (normalizeRSSContent s = normalizeRSSContent (env.readFile (urlToFilePathU cfg u))) := by
      intro h2
      exact hskip (by rw [hskipiff]; exact beq_iff_eq.mpr h2)
    simp only [hskip, if_false]
    have hwl : ∀ l : List (Str × ContentV), ∀ x : Str × ContentV, ¬ (l ++ [x] = l) := by
      intro l x h2
      have := congrArg List.length h2
      simp at this
    split
    · simp [hneq, hwl]
    · simp [enqueueChildren_fields, hneq, hwl]

def uC5 : JsUrl :=
  { scheme := strOf "https", host := strOf "h", pathRaw := strOf "/p/rss/", search := [],
    hash := [] }

/-- Witness for C5: a concrete 200 fetch of an RSS URL whose body
differs from the on-disk copy only in the domain spelling. -/
theorem c5_rss_write_elision_witness :
    (crawlStep cfgW envC5 {} (strOf "https://h/p/rss/")).writeLog = ({} : CrawlState).writeLog ↔
      normalizeRSSContent bodyNewC5 =
        normalizeRSSContent (envC5.readFile (urlToFilePathU cfgW uC5)) :=
  c5_rss_write_elision cfgW envC5 {} (strOf "https://h/p/rss/") rfl (by simp) (by simp)
    uC5 (by decide) bodyNewC5 rfl rfl (by decide) (by decide) (by decide)

/-! ## Facts about the URL parser and string suffixes -/

theorem takeWhile_cons_head {p : Char → Bool} {l t : Str} {a : Char}
    (h : l.takeWhile p = a :: t) : p a = true ∧ ∃ t2, l = a :: t2 := by
  cases l with
  | nil => simp at h
  | cons b l2 =>
    rw [List.takeWhile_cons] at h
    by_cases hb : p b
    · simp only [hb, if_true] at h
      injection h with h1 h2
      subst h1
      exact ⟨hb, l2, rfl⟩
    · simp [hb] at h

theorem dropWhile_cons_head {p : Char → Bool} {l t : Str} {a : Char}
    (h : l.dropWhile p = a :: t) : p a = false := by
  induction l with
  | nil => simp at h
  | cons b l2 ih =>
    rw [List.dropWhile_cons] at h
    by_cases hb : p b
    · simp only [hb, if_true] at h
      exact ih h
    · simp only [hb, if_false] at h
      injection h with h1 h2
      subst h1
      simp [hb]

/-- Every URL the parser accepts has a pathname starting with a
slash. -/
theorem parseUrl_path_slash (s : Str) (u : JsUrl) (h : parseUrl s = some u) :
    startsWithS u.pathRaw ['/'] = true := by
  unfold parseUrl at h
  split at h
  · rename_i x r heq
    dsimp only at h
    split at h
    · simp at h
    · split at h
      · simp at h
      · have hu := (Option.some.injEq _ _).mp h
        subst hu
        rcases hpc : List.takeWhile (fun c => decide (c ≠ '?') && decide (c ≠ '#'))
            (List.dropWhile (fun c => decide (c ≠ '/') && decide (c ≠ '?') && decide (c ≠ '#')) r)
          with _ | ⟨a, t⟩
        · rfl
        · rcases takeWhile_cons_head hpc with ⟨hqa, t2, ht2⟩
          have hq2 := dropWhile_cons_head ht2
          have ha : a = '/' := by
            simp only [Bool.and_eq_true, decide_eq_true_eq] at hqa
            simp only [Bool.and_eq_false_iff, decide_eq_false_iff_not, not_not] at hq2
            rcases hq2 with h1 | h2
            · rcases h1 with h1 | h1
              · simpa using h1
              · exact absurd (by simpa using h1) hqa.1
            · exact absurd (by simpa using h2) hqa.2
          subst ha
          simp [startsWithS, List.isPrefixOf]
  · simp at h

theorem endsWithS_exists {s pat : Str} (h : endsWithS s pat = true) : ∃ y, s = y ++ pat := by
  rcases List.isSuffixOf_iff_suffix.mp h with ⟨y, hy⟩
  exact ⟨y, hy.symm⟩

theorem endsWithS_append (y pat : Str) : endsWithS (y ++ pat) pat = true :=
  List.isSuffixOf_iff_suffix.mpr ⟨y, rfl⟩

/-- C9 (amended): the normalized URL key strips a trailing /index.html
to /, appends a trailing slash to extensionless paths outside the
raw-subtree prefixes, and leaves already-slash-terminated paths alone,
but it PRESERVES the search string and any #fragment verbatim rather
than dropping the fragment. -/
theorem c9_normalizeUrl_fragment (s : Str) (u : JsUrl) (hparse : parseUrl s = some u) :
    ∃ p2 : Str,
      normalizeUrl s = u.origin ++ p2 ++ u.search ++ u.hash ∧
      (endsWithS u.pathRaw (strOf "/index.html") = true →
        p2 = u.pathRaw.take (u.pathRaw.length - 10)) ∧
      (endsWithS u.pathRaw (strOf "/index.html") = false →
        endsWithS u.pathRaw ['/'] = false →
        (extnameP u.pathRaw).isEmpty = true →
        startsWithS (u.pathRaw.drop 1) rawSub1 = false →
        startsWithS (u.pathRaw.drop 1) rawSub2 = false →
        startsWithS (u.pathRaw.drop 1) rawSub3 = false →
        p2 = u.pathRaw ++ ['/']) ∧
      (endsWithS u.pathRaw (strOf "/index.html") = false →
        endsWithS u.pathRaw ['/'] = true →
        p2 = u.pathRaw) := by
  have hslash := parseUrl_path_slash s u hparse
  unfold normalizeUrl
  rw [hparse]
  refine ⟨_, rfl, ?_, ?_, ?_⟩
  · intro h1
    rcases endsWithS_exists h1 with ⟨y, hy⟩
    have hlen11 : (strOf "/index.html").length = 11 := rfl
    have hp1 : u.pathRaw.take (u.pathRaw.length - 10) = y ++ ['/'] := by
      rw [hy]
      have hsplit : y ++ strOf "/index.html" = (y ++ ['/']) ++ strOf "index.html" := by
        simp [strOf]
      rw [hsplit]
      have hl : ((y ++ ['/']) ++ strOf "index.html").length - 10 = (y ++ ['/']).length := by
        simp [strOf]
      rw [hl]
      exact List.take_left _ _
    simp only [h1, if_true]
    rw [hp1]
    rw [endsWithS_append y ['/']]
    simp
  · intro h1 h2 h3 h4 h5 h6
    have hne : (u.pathRaw == strOf "/index.html") = false := by
      cases hbe : u.pathRaw == strOf "/index.html"
      · rfl
      · have heq2 : u.pathRaw = strOf "/index.html" := eq_of_beq hbe
        rw [heq2] at h1
        exact absurd h1 (by decide)
    simp only [h1, hne, Bool.false_eq_true, if_false]
    simp only [hslash, if_true]
    simp only [h2, h3, h4, h5, h6]
    simp
  · intro h1 h2
    have hne : (u.pathRaw == strOf "/index.html") = false := by
      cases hbe : u.pathRaw == strOf "/index.html"
      · rfl
      · have heq2 : u.pathRaw = strOf "/index.html" := eq_of_beq hbe
        rw [heq2] at h2
        exact absurd h2 (by decide)
    simp only [h1, hne, Bool.false_eq_true, if_false]
    simp only [h2]
    simp


/-- C9 counterexample: normalizeUrl keeps the #f fragment (while
appending the trailing slash), so the normalized key used by the
crawler can contain a fragment, contrary to the claim that fragments
are dropped. -/
theorem c9_counterexample :
    normalizeUrl (strOf "https://x.com/a#f") = strOf "https://x.com/a/#f" ∧
      (parseUrl (normalizeUrl (strOf "https://x.com/a#f"))).map JsUrl.hash =
        some (strOf "#f") := by
  constructor
  · decide
  · decide

def uC9 : JsUrl :=
  { scheme := strOf "https", host := strOf "x.com", pathRaw := strOf "/a", search := [],
    hash := strOf "#f" }

/-- Witness for C9 at a concrete fragment-carrying URL. -/
theorem c9_normalizeUrl_fragment_witness :
    ∃ p2, normalizeUrl (strOf "https://x.com/a#f") =
      uC9.origin ++ p2 ++ uC9.search ++ uC9.hash :=
  (c9_normalizeUrl_fragment (strOf "https://x.com/a#f") uC9 (by decide)).elim
    (fun p2 h => ⟨p2, h.1⟩)


theorem enqueueChildren_writeLog (links : List Str) (s : CrawlState) :
    (enqueueChildren links s).writeLog = s.writeLog :=
  (enqueueChildren_fields links s).2.2.2.2.2.1

/-! ## Claims C10 and C3: the 304 branch of crawlUrl -/

/-- C10 (confirmed): a 304 whose output file exists on disk but whose
URL has no node in the previously loaded graph records no node in the
new graph, enqueues no child URLs, and still marks the URL done
(crawled); with no node recorded, the URL contributes no edges to the
reachability computation of the GC. -/
theorem c10_304_no_old_node (cfg : CrawlCfg) (env : CrawlEnv) (st : CrawlState) (url0 : Str)
    (hab : st.aborted = false)
    (hc : normalizeUrl url0 ∉ st.crawled) (hip : normalizeUrl url0 ∉ st.inProgress)
    (u : JsUrl) (hparse : parseUrl (normalizeUrl url0) = some u)
    (hst : (env.fetch1 (normalizeUrl url0)).status = 304)
    (hex : env.existsOnDisk (urlToFilePathU cfg u) = true)
    (hnode : env.oldGraph (normalizeUrl url0) = none) :
    (crawlStep cfg env st url0).newGraph = st.newGraph ∧
    (crawlStep cfg env st url0).queue = st.queue ∧
    normalizeUrl url0 ∈ (crawlStep cfg env st url0).crawled ∧
    (crawlStep cfg env st url0).fetchLog = st.fetchLog ++ [normalizeUrl url0] := by
  unfold crawlStep
  simp only [hab, Bool.false_eq_true, if_false]
  rw [if_neg (fun h => h.elim hc hip)]
  rw [hparse]
  simp only [hst, hex, hnode]
  norm_num
  exact mem_setAdd_self _ _

/-- C3 (amended): on a 304 whose output file is missing, the crawler
clears the ValidatorCache entry and retries the fetch exactly once
unconditionally, and a 200 retry body is written to disk; but the
retry body is NOT parsed for links, and the graph node recorded is the
previous run node reused verbatim (none at all when the URL had no old
node), rather than a node built from the retry response. -/
theorem c3_missing_file_repair (cfg : CrawlCfg) (env : CrawlEnv) (st : CrawlState) (url0 : Str)
    (hab : st.aborted = false)
    (hc : normalizeUrl url0 ∉ st.crawled) (hip : normalizeUrl url0 ∉ st.inProgress)
    (u : JsUrl) (hparse : parseUrl (normalizeUrl url0) = some u)
    (hst : (env.fetch1 (normalizeUrl url0)).status = 304)
    (hex : env.existsOnDisk (urlToFilePathU cfg u) = false) :
    (crawlStep cfg env st url0).clearLog = st.clearLog ++ [normalizeUrl url0] ∧
    (crawlStep cfg env st url0).fetchLog =
      st.fetchLog ++ [normalizeUrl url0, normalizeUrl url0] ∧
    (∀ c, (env.fetch2 (normalizeUrl url0)).status = 200 →
      (env.fetch2 (normalizeUrl url0)).content = some c → contentTruthy (some c) = true →
      (crawlStep cfg env st url0).writeLog = st.writeLog ++ [(urlToFilePathU cfg u, c)]) ∧
    (crawlStep cfg env st url0).parseLog = st.parseLog ∧
    (crawlStep cfg env st url0).newGraph =
      (match env.oldGraph (normalizeUrl url0) with
        | none => st.newGraph
        | some n =>
          assocSet st.newGraph (normalizeUrl url0)
            { outLinks := n.outLinks, resources := n.resources }) ∧
    normalizeUrl url0 ∈ (crawlStep cfg env st url0).crawled := by
  unfold crawlStep
  simp only [hab, Bool.false_eq_true, if_false]
  rw [if_neg (fun h => h.elim hc hip)]
  rw [hparse]
  simp only [hst, hex]
  norm_num
  rcases hnode : env.oldGraph (normalizeUrl url0) with _ | n
  · by_cases hfr : (env.fetch2 (normalizeUrl url0)).status = 200
        ∧ contentTruthy (env.fetch2 (normalizeUrl url0)).content = true
    · simp only [if_pos hfr]
      refine ⟨by first | trivial | simp, by first | trivial | simp, ?_,
        by first | trivial | simp, by first | trivial | simp,
        by first | exact mem_setAdd_self _ _ | simp [mem_setAdd_self]⟩
      intro c h200 hcon htr
      first | simp [hcon] | simp [enqueueChildren_fields, hcon]
    · simp only [if_neg hfr]
      refine ⟨by first | trivial | simp, by first | trivial | simp, ?_,
        by first | trivial | simp, by first | trivial | simp,
        by first | exact mem_setAdd_self _ _ | simp [mem_setAdd_self]⟩
      intro c h200 hcon htr
      exact absurd ⟨h200, by rw [hcon]; exact htr⟩ hfr
  · by_cases hfr : (env.fetch2 (normalizeUrl url0)).status = 200
        ∧ contentTruthy (env.fetch2 (normalizeUrl url0)).content = true
    · simp only [if_pos hfr]
      refine ⟨by first | trivial | simp [enqueueChildren_fields],
        by first | trivial | simp [enqueueChildren_fields], ?_,
        by first | trivial | simp [enqueueChildren_fields],
        by first | trivial | simp [enqueueChildren_fields],
        by first | exact mem_setAdd_self _ _ | simp [enqueueChildren_fields, mem_setAdd_self]⟩
      intro c h200 hcon htr
      simp [enqueueChildren_writeLog, hcon]
    · simp only [if_neg hfr]
      refine ⟨by first | trivial | simp [enqueueChildren_fields],
        by first | trivial | simp [enqueueChildren_fields], ?_,
        by first | trivial | simp [enqueueChildren_fields],
        by first | trivial | simp [enqueueChildren_fields],
        by first | exact mem_setAdd_self _ _ | simp [enqueueChildren_fields, mem_setAdd_self]⟩
      intro c h200 hcon htr
      exact absurd ⟨h200, by rw [hcon]; exact htr⟩ hfr

def envC10 : CrawlEnv :=
  { fetch1 := fun _ => { status := 304 }
    fetch2 := fun _ => { status := 304 }
    existsOnDisk := fun _ => true
    readFile := fun _ => []
    oldGraph := fun _ => none
    parseHtml := fun _ => []
    parseCss := fun _ _ => [] }

def uDir : JsUrl :=
  { scheme := strOf "https", host := strOf "h", pathRaw := strOf "/a/", search := [], hash := [] }

/-- Witness for C10 at a concrete 304-with-file-present fetch. -/
theorem c10_witness :
    (crawlStep cfgW envC10 {} (strOf "https://h/a/")).newGraph = ({} : CrawlState).newGraph ∧
    (crawlStep cfgW envC10 {} (strOf "https://h/a/")).queue = ({} : CrawlState).queue ∧
    normalizeUrl (strOf "https://h/a/") ∈
      (crawlStep cfgW envC10 {} (strOf "https://h/a/")).crawled ∧
    (crawlStep cfgW envC10 {} (strOf "https://h/a/")).fetchLog =
      ({} : CrawlState).fetchLog ++ [normalizeUrl (strOf "https://h/a/")] :=
  c10_304_no_old_node cfgW envC10 {} (strOf "https://h/a/") rfl (by simp) (by simp)
    uDir (by decide) rfl rfl rfl

def bodyC3 : Str := strOf "<a href=\"https://h/b/\">x</a>"

def envC3 : CrawlEnv :=
  { fetch1 := fun _ => { status := 304 }
    fetch2 := fun _ =>
      { status := 200, content := some (ContentV.str bodyC3),
        contentType := some (strOf "text/html") }
    existsOnDisk := fun _ => false
    readFile := fun _ => []
    oldGraph := fun _ => none
    parseHtml := fun _ => [strOf "https://h/b/"]
    parseCss := fun _ _ => [] }

/-- C3 counterexample: a 304 with the file missing and a 200 retry
carrying an HTML body with a link: the body is written, but nothing is
parsed and no graph node is recorded for the URL, against the claim
that the retry result is treated as a first response. -/
theorem c3_counterexample :
    (crawlStep cfgW envC3 {} (strOf "https://h/a/")).writeLog =
        [(strOf "static/a/index.html", ContentV.str bodyC3)] ∧
      (crawlStep cfgW envC3 {} (strOf "https://h/a/")).fetchLog =
        [strOf "https://h/a/", strOf "https://h/a/"] ∧
      (crawlStep cfgW envC3 {} (strOf "https://h/a/")).parseLog = ([] : List Str) ∧
      getNodeL (crawlStep cfgW envC3 {} (strOf "https://h/a/")).newGraph
        (strOf "https://h/a/") = none := by
  refine ⟨?_, ?_, ?_, ?_⟩ <;> decide

/-- Witness for C3 at a concrete 304-with-missing-file fetch. -/
theorem c3_witness :
    (crawlStep cfgW envC3 {} (strOf "https://h/a/")).clearLog =
      ({} : CrawlState).clearLog ++ [normalizeUrl (strOf "https://h/a/")] :=
  (c3_missing_file_repair cfgW envC3 {} (strOf "https://h/a/") rfl (by simp) (by simp)
    uDir (by decide) rfl rfl).1

/-! ## Claim C6: video thumbnail derivation -/

theorem mem_dedupFirst_aux (xs : List Str) (acc : List Str) (y : Str) :
    y ∈ xs.foldl (fun acc x => if x ∈ acc then acc else acc ++ [x]) acc ↔ y ∈ acc ∨ y ∈ xs := by
  induction xs generalizing acc with
  | nil => simp
  | cons x t ih =>
    simp only [List.foldl_cons]
    rw [ih]
    by_cases hx : x ∈ acc
    · simp only [hx, if_true]
      constructor
      · rintro (h | h)
        · exact Or.inl h
        · exact Or.inr (List.mem_cons_of_mem _ h)
      · rintro (h | h)
        · exact Or.inl h
        · rcases List.mem_cons.mp h with rfl | h2
          · exact Or.inl hx
          · exact Or.inr h2
    · simp only [hx, if_false]
      constructor
      · rintro (h | h)
        · rcases List.mem_append.mp h with h2 | h2
          · exact Or.inl h2
          · simp at h2
            subst h2
            exact Or.inr (List.mem_cons_self _ _)
        · exact Or.inr (List.mem_cons_of_mem _ h)
      · rintro (h | h)
        · exact Or.inl (List.mem_append.mpr (Or.inl h))
        · rcases List.mem_cons.mp h with rfl | h2
          · exact Or.inl (by simp)
          · exact Or.inr h2

theorem mem_dedupFirst {xs : List Str} {y : Str} : y ∈ dedupFirst xs ↔ y ∈ xs := by
  unfold dedupFirst
  rw [mem_dedupFirst_aux]
  simp

theorem assocFind_assocSet_self {α : Type} (m : List (Str × α)) (k : Str) (v : α) :
    assocFind (assocSet m k v) k = some v := by
  induction m with
  | nil => simp [assocSet, assocFind]
  | cons kv t ih =>
    rcases kv with ⟨k2, v2⟩
    unfold assocSet
    by_cases hk : k2 = k
    · simp only [hk, if_true]
      simp [assocFind]
    · simp only [hk, if_false]
      unfold assocFind
      simp only [hk, if_false]
      exact ih

theorem classifyStep_mono {acc acc2 : List Str × List Str} {link : Str}
    (h : classifyStep acc link = some acc2) :
    (∀ x ∈ acc.1, x ∈ acc2.1) ∧ (∀ x ∈ acc.2, x ∈ acc2.2) := by
  unfold classifyStep at h
  rcases hp : parseUrl link with _ | u
  · rw [hp] at h; simp at h
  · rw [hp] at h
    by_cases hh : isHtmlContentU none (some u) = true
    · simp only [hh, if_true] at h
      have := (Option.some.injEq _ _).mp h
      subst this
      constructor
      · intro x hx; simp [hx]
      · intro x hx; simpa using hx
    · simp only [hh, if_false] at h
      have := (Option.some.injEq _ _).mp h
      subst this
      constructor
      · intro x hx; simpa using hx
      · intro x hx
        split <;> simp [hx]

theorem classify_go_mono (links : List Str) : ∀ (acc : List Str × List Str)
    (o r : List Str), links.foldlM classifyStep acc = some (o, r) →
    (∀ x ∈ acc.1, x ∈ o) ∧ (∀ x ∈ acc.2, x ∈ r) := by
  induction links with
  | nil =>
    intro acc o r h
    have hae : acc = (o, r) := (Option.some.injEq _ _).mp h
    subst hae
    exact ⟨fun x hx => hx, fun x hx => hx⟩
  | cons l t ih =>
    intro acc o r h
    rcases hs : classifyStep acc l with _ | acc2
    · rw [List.foldlM_cons, hs] at h
      exact Option.noConfusion h
    · rw [List.foldlM_cons, hs] at h
      have h2 : t.foldlM classifyStep acc2 = some (o, r) := h
      rcases classifyStep_mono hs with ⟨h1a, h2a⟩
      rcases ih acc2 o r h2 with ⟨h3, h4⟩
      exact ⟨fun x hx => h3 x (h1a x hx), fun x hx => h4 x (h2a x hx)⟩

theorem classify_go_video (links : List Str) : ∀ (acc : List Str × List Str)
    (o r : List Str), links.foldlM classifyStep acc = some (o, r) →
    ∀ link ∈ links, ∀ u : JsUrl, parseUrl link = some u →
    isHtmlContentU none (some u) = false → isVideoUrlU u = true →
    link ∈ r ∧ getVideoThumbnailUrlU u ∈ r := by
  induction links with
  | nil =>
    intro acc o r h link hmem
    simp at hmem
  | cons l t ih =>
    intro acc o r h link hmem u hparse hhtml hvid
    rcases hs : classifyStep acc l with _ | acc2
    · rw [List.foldlM_cons, hs] at h
      exact Option.noConfusion h
    · rw [List.foldlM_cons, hs] at h
      have h2 : t.foldlM classifyStep acc2 = some (o, r) := h
      rcases List.mem_cons.mp hmem with rfl | hmem2
      · have hs2 := hs
        unfold classifyStep at hs2
        rw [hparse] at hs2
        simp only [hhtml, Bool.false_eq_true, if_false, hvid, if_true] at hs2
        have hacc2 := (Option.some.injEq _ _).mp hs2
        rcases classify_go_mono t acc2 o r h2 with ⟨_, h4⟩
        constructor
        · exact h4 _ (by rw [← hacc2]; simp)
        · exact h4 _ (by rw [← hacc2]; simp)
      · exact ih acc2 o r h2 link hmem2 u hparse hhtml hvid

theorem findIdx?_no_hit {p : Char → Bool} (xs : Str) (y : Char) (ys : Str)
    (hxs : ∀ x ∈ xs, p x = false) (hy : p y = true) :
    ∀ i, List.findIdx? p (xs ++ y :: ys) i = some (i + xs.length) := by
  induction xs with
  | nil =>
    intro i
    simp [List.findIdx?, hy]
  | cons x t ih =>
    intro i
    have hx : p x = false := hxs x (by simp)
    have ht : ∀ x2 ∈ t, p x2 = false := fun x2 hx2 => hxs x2 (by simp [hx2])
    simp only [List.cons_append, List.findIdx?, hx, Bool.false_eq_true, if_false]
    rw [List.append_eq, ih ht (i + 1)]
    congr 1
    simp
    omega

theorem lastIdxOf_append_cons {a : Str} {c : Char} {b : Str} (hb : c ∉ b) :
    lastIdxOf (a ++ c :: b) c = some a.length := by
  unfold lastIdxOf
  have hrev : (a ++ c :: b).reverse = b.reverse ++ c :: a.reverse := by
    simp
  rw [hrev]
  have hbv : ∀ x ∈ b.reverse, (decide (x = c)) = false := by
    intro x hx
    simp only [decide_eq_false_iff_not]
    intro hxc
    subst hxc
    exact hb (List.mem_reverse.mp hx)
  rw [findIdx?_no_hit b.reverse c a.reverse hbv (by simp) 0]
  simp only [Nat.zero_add, List.length_reverse, List.length_append, List.length_cons]
  congr 1
  omega

theorem toLower_eq_dot {c : Char} (h : c.toLower = '.') : c = '.' := by
  unfold Char.toLower at h
  dsimp only at h
  split at h
  · rename_i hcond
    exfalso
    obtain ⟨h1, h2⟩ := hcond
    generalize hn : Char.toNat c = n at h h1 h2
    interval_cases n <;> exact absurd h (by decide)
  · exact h

theorem getVideoThumbnail_shape (u : JsUrl) (y b : Str)
    (hdec : u.pathRaw = y ++ '.' :: b) (hb : '.' ∉ b) :
    getVideoThumbnailUrlU u = u.origin ++ y ++ strOf "_thumb.jpg" := by
  unfold getVideoThumbnailUrlU
  rw [hdec, lastIdxOf_append_cons hb]
  show u.origin ++ List.take y.length (y ++ '.' :: b) ++ strOf "_thumb.jpg" =
    u.origin ++ y ++ strOf "_thumb.jpg"
  rw [List.take_left]

theorem isVideo_decomp (u : JsUrl) (hvid : isVideoUrlU u = true) :
    ∃ ext ∈ videoExtensions, ∃ y b, u.pathRaw = y ++ '.' :: b ∧ '.' ∉ b ∧
      lowerS ('.' :: b) = ext := by
  unfold isVideoUrlU at hvid
  rw [List.any_eq_true] at hvid
  rcases hvid with ⟨ext, hmem, hends⟩
  rcases endsWithS_exists hends with ⟨y0, hy0⟩
  refine ⟨ext, hmem, ?_⟩
  unfold lowerS at hy0
  rcases List.map_eq_append_iff.mp hy0 with ⟨y1, e1, hsplit, hmy, hme⟩
  fin_cases hmem
  all_goals (
    rcases e1 with _ | ⟨c1, e2⟩
    · simp [strOf] at hme
    · simp only [List.map_cons] at hme
      injection hme with hme1 hme2
      have hc1 : c1 = '.' := toLower_eq_dot hme1
      subst hc1
      refine ⟨y1, e2, by rw [hsplit], ?_, ?_⟩
      · intro hdot
        have : Char.toLower '.' ∈ List.map Char.toLower e2 := List.mem_map_of_mem _ hdot
        rw [hme2] at this
        exact absurd this (by decide)
      · simp only [lowerS, List.map_cons, hme2]
        rfl)

theorem enqueueChildren_newGraph (links : List Str) (s : CrawlState) :
    (enqueueChildren links s).newGraph = s.newGraph :=
  (enqueueChildren_fields links s).2.2.1

/-- C6 (confirmed): every extracted link classified as a subresource
whose URL path ends in a video extension is recorded together with a
derived thumbnail URL at the same path with the last extension
replaced by _thumb.jpg; both the video URL and the thumbnail URL
appear (normalized) in the resources of the graph node the crawler
records for the page. -/
theorem c6_video_thumbnail (cfg : CrawlCfg) (env : CrawlEnv) (st : CrawlState) (url0 : Str)
    (hab : st.aborted = false)
    (hc : normalizeUrl url0 ∉ st.crawled) (hip : normalizeUrl url0 ∉ st.inProgress)
    (u : JsUrl) (hparse : parseUrl (normalizeUrl url0) = some u)
    (s : Str) (hst : (env.fetch1 (normalizeUrl url0)).status = 200)
    (hco : (env.fetch1 (normalizeUrl url0)).content = some (ContentV.str s))
    (hs : s ≠ [])
    (hhtml : isHtmlContentU (env.fetch1 (normalizeUrl url0)).contentType (some u) = true)
    (outL res : List Str) (hcl : classifyLinks (env.parseHtml s) = some (outL, res))
    (link : Str) (hmem : link ∈ env.parseHtml s)
    (v : JsUrl) (hpl : parseUrl link = some v)
    (hsub : isHtmlContentU none (some v) = false)
    (hvid : isVideoUrlU v = true) :
    ∃ node : GraphNode,
      getNodeL (crawlStep cfg env st url0).newGraph (normalizeUrl url0) = some node ∧
      normalizeUrl link ∈ node.resources ∧
      normalizeUrl (getVideoThumbnailUrlU v) ∈ node.resources ∧
      link ∈ res ∧ getVideoThumbnailUrlU v ∈ res ∧
      (∃ y b, v.pathRaw = y ++ '.' :: b ∧ '.' ∉ b ∧ lowerS ('.' :: b) ∈ videoExtensions ∧
        getVideoThumbnailUrlU v = v.origin ++ y ++ strOf "_thumb.jpg") := by
  have hvres := classify_go_video (env.parseHtml s) ([], []) outL res hcl link hmem v hpl
    hsub hvid
  have hshape : ∃ y b, v.pathRaw = y ++ '.' :: b ∧ '.' ∉ b ∧
      lowerS ('.' :: b) ∈ videoExtensions ∧
      getVideoThumbnailUrlU v = v.origin ++ y ++ strOf "_thumb.jpg" := by
    rcases isVideo_decomp v hvid with ⟨ext, hext, y, b, hdec, hb, hlow⟩
    exact ⟨y, b, hdec, hb, hlow ▸ hext, getVideoThumbnail_shape v y b hdec hb⟩
  have hct2 : contentTruthy (some (ContentV.str s)) = true := by simp [contentTruthy, hs]
  unfold crawlStep
  simp only [hab, Bool.false_eq_true, if_false]
  rw [if_neg (by exact fun h => h.elim hc hip)]
  rw [hparse]
  simp only [hst, hco]
  norm_num
  simp only [hct2, if_true]
  simp only [hhtml, Bool.true_and, if_true]
  rw [hcl]
  simp only [Option.map_some]
  refine ⟨⟨dedupFirst (outL.map normalizeUrl), dedupFirst (res.map normalizeUrl)⟩,
    ?_, ?_, ?_, hvres.1, hvres.2, by simpa [List.append_assoc] using hshape⟩
  · by_cases hskip : shouldSkipWrite env (urlToFilePathU cfg u)
        (ContentV.str s) = true
    · simp only [hskip, if_true]
      unfold getNodeL
      rw [enqueueChildren_newGraph]
      exact assocFind_assocSet_self _ _ _
    · simp only [hskip, if_false]
      unfold getNodeL
      rw [enqueueChildren_newGraph]
      exact assocFind_assocSet_self _ _ _
  · exact mem_dedupFirst.mpr (List.mem_map_of_mem _ hvres.1)
  · exact mem_dedupFirst.mpr (List.mem_map_of_mem _ hvres.2)

def vidLinkC6 : Str := strOf "https://h/content/media/clip.mp4"
def thumbLinkC6 : Str := strOf "https://h/content/media/clip_thumb.jpg"
def bodyC6 : Str := strOf "<video src=\"https://h/content/media/clip.mp4\"></video>"

def envC6 : CrawlEnv :=
  { fetch1 := fun _ =>
      { status := 200, content := some (ContentV.str bodyC6),
        contentType := some (strOf "text/html") }
    fetch2 := fun _ => { status := 200 }
    existsOnDisk := fun _ => false
    readFile := fun _ => []
    oldGraph := fun _ => none
    parseHtml := fun _ => [vidLinkC6]
    parseCss := fun _ _ => [] }

def uPostC6 : JsUrl :=
  { scheme := strOf "https", host := strOf "h", pathRaw := strOf "/post/", search := [],
    hash := [] }

def vC6 : JsUrl :=
  { scheme := strOf "https", host := strOf "h", pathRaw := strOf "/content/media/clip.mp4",
    search := [], hash := [] }

/-- Witness for C6 at a concrete page referencing one video. -/
theorem c6_witness :
    ∃ node : GraphNode,
      getNodeL (crawlStep cfgW envC6 {} (strOf "https://h/post/")).newGraph
        (normalizeUrl (strOf "https://h/post/")) = some node ∧
      normalizeUrl vidLinkC6 ∈ node.resources ∧
      normalizeUrl (getVideoThumbnailUrlU vC6) ∈ node.resources ∧
      vidLinkC6 ∈ [vidLinkC6, thumbLinkC6] ∧
      getVideoThumbnailUrlU vC6 ∈ [vidLinkC6, thumbLinkC6] ∧
      (∃ y b, vC6.pathRaw = y ++ '.' :: b ∧ '.' ∉ b ∧ lowerS ('.' :: b) ∈ videoExtensions ∧
        getVideoThumbnailUrlU vC6 = vC6.origin ++ y ++ strOf "_thumb.jpg") :=
  c6_video_thumbnail cfgW envC6 {} (strOf "https://h/post/") rfl (by simp) (by simp)
    uPostC6 (by decide) bodyC6 rfl rfl (by decide) (by decide) [] [vidLinkC6, thumbLinkC6]
    (by decide) vidLinkC6 (by decide) vC6 (by decide) (by decide) (by decide)

def repairCond (cfg : CrawlCfg) (env : CrawlEnv) (x : Str) : Bool :=
  ((env.fetch1 x).status == 304) &&
    (match parseUrl x with
     | none => false
     | some ju => !(env.existsOnDisk (urlToFilePathU cfg ju)))

theorem mem_setDel_of_ne {xs : List Str} {x y : Str} (hne : y ≠ x) (hy : y ∈ xs) :
    y ∈ setDel xs x := by
  unfold setDel
  rw [List.mem_filter]
  exact ⟨hy, by simp [hne]⟩

theorem enqueueChildren_crawled (links : List Str) (s : CrawlState) :
    (enqueueChildren links s).crawled = s.crawled :=
  (enqueueChildren_fields links s).1

theorem enqueueChildren_inProgress (links : List Str) (s : CrawlState) :
    (enqueueChildren links s).inProgress = s.inProgress :=
  (enqueueChildren_fields links s).2.1

theorem enqueueChildren_fetchLog (links : List Str) (s : CrawlState) :
    (enqueueChildren links s).fetchLog = s.fetchLog :=
  (enqueueChildren_fields links s).2.2.2.1

theorem crawlStep_cases (cfg : CrawlCfg) (env : CrawlEnv) (st : CrawlState) (url0 : Str) :
    crawlStep cfg env st url0 = st ∨
    (normalizeUrl url0 ∉ st.crawled ∧ normalizeUrl url0 ∉ st.inProgress ∧
     ((crawlStep cfg env st url0).fetchLog = st.fetchLog ∨
      (crawlStep cfg env st url0).fetchLog = st.fetchLog ++ [normalizeUrl url0] ∨
      ((crawlStep cfg env st url0).fetchLog =
          st.fetchLog ++ [normalizeUrl url0, normalizeUrl url0] ∧
        repairCond cfg env (normalizeUrl url0) = true)) ∧
     (normalizeUrl url0 ∈ (crawlStep cfg env st url0).crawled ∨
      normalizeUrl url0 ∈ (crawlStep cfg env st url0).inProgress) ∧
     (∀ x, x ∈ st.crawled → x ∈ (crawlStep cfg env st url0).crawled) ∧
     (∀ x, x ≠ normalizeUrl url0 → x ∈ st.inProgress →
        x ∈ (crawlStep cfg env st url0).inProgress)) := by
  by_cases hab : st.aborted = true
  · left
    unfold crawlStep
    simp [hab]
  · have hab2 : st.aborted = false := by simpa using hab
    by_cases hseen : normalizeUrl url0 ∈ st.crawled ∨ normalizeUrl url0 ∈ st.inProgress
    · left
      unfold crawlStep
      simp only [hab2, Bool.false_eq_true, if_false, if_pos hseen]
    · right
      refine ⟨fun h => hseen (Or.inl h), fun h => hseen (Or.inr h), ?_⟩
      unfold crawlStep
      simp only [hab2, Bool.false_eq_true, if_false]
      rw [if_neg hseen]
      rcases hp : parseUrl (normalizeUrl url0) with _ | u
      · exact ⟨Or.inl rfl, Or.inr (mem_setAdd_self _ _), fun x hx => hx,
          fun x hne hx => mem_setAdd_iff.mpr (Or.inl hx)⟩
      · by_cases h404 : ((env.fetch1 (normalizeUrl url0)).status == 404) = true
        · simp only [h404, if_true]
          exact ⟨Or.inr (Or.inl (by first | rfl | trivial)), Or.inl (mem_setAdd_self _ _),
            fun x hx => mem_setAdd_iff.mpr (Or.inl hx),
            fun x hne hx => mem_setDel_of_ne hne (mem_setAdd_iff.mpr (Or.inl hx))⟩
        · simp only [h404, Bool.false_eq_true, if_false]
          by_cases herr : (!((env.fetch1 (normalizeUrl url0)).status == 200)
              && !((env.fetch1 (normalizeUrl url0)).status == 304)) = true
          · simp only [herr, if_true]
            exact ⟨Or.inr (Or.inl (by first | rfl | trivial)), Or.inl (mem_setAdd_self _ _),
              fun x hx => mem_setAdd_iff.mpr (Or.inl hx),
              fun x hne hx => mem_setDel_of_ne hne (mem_setAdd_iff.mpr (Or.inl hx))⟩
          · simp only [herr, Bool.false_eq_true, if_false]
            by_cases h304 : ((env.fetch1 (normalizeUrl url0)).status == 304) = true
            · simp only [h304, if_true]
              by_cases hex : env.existsOnDisk (urlToFilePathU cfg u) = true
              · have hexb : (!(env.existsOnDisk (urlToFilePathU cfg u))) = false := by
                  simp [hex]
                simp only [hexb, Bool.false_eq_true, if_false]
                rcases hnode : env.oldGraph (normalizeUrl url0) with _ | n
                · exact ⟨Or.inr (Or.inl (by first | rfl | trivial)), Or.inl (mem_setAdd_self _ _),
                    fun x hx => mem_setAdd_iff.mpr (Or.inl hx),
                    fun x hne hx => mem_setDel_of_ne hne (mem_setAdd_iff.mpr (Or.inl hx))⟩
                · refine ⟨Or.inr (Or.inl (by simp [enqueueChildren_fetchLog])),
                    Or.inl (by simp [enqueueChildren_crawled, mem_setAdd_iff]),
                    fun x hx => by simp [enqueueChildren_crawled, mem_setAdd_iff, hx],
                    fun x hne hx => mem_setDel_of_ne hne
                      (by simp [enqueueChildren_inProgress, mem_setAdd_iff, hx])⟩
              · have hex2 : env.existsOnDisk (urlToFilePathU cfg u) = false := by
                  simpa using hex
                have hexb : (!(env.existsOnDisk (urlToFilePathU cfg u))) = true := by
                  simp [hex2]
                simp only [hexb, if_true]
                have hrc : repairCond cfg env (normalizeUrl url0) = true := by
                  simp [repairCond, hp, hex2, h304]
                by_cases hfr : ((env.fetch2 (normalizeUrl url0)).status == 200
                    && contentTruthy (env.fetch2 (normalizeUrl url0)).content) = true
                · simp only [hfr, if_true]
                  rcases hnode : env.oldGraph (normalizeUrl url0) with _ | n
                  · exact ⟨Or.inr (Or.inr ⟨by simp, hrc⟩), Or.inl (mem_setAdd_self _ _),
                      fun x hx => mem_setAdd_iff.mpr (Or.inl hx),
                      fun x hne hx => mem_setDel_of_ne hne (mem_setAdd_iff.mpr (Or.inl hx))⟩
                  · refine ⟨Or.inr (Or.inr ⟨by simp [enqueueChildren_fetchLog], hrc⟩),
                      Or.inl (by simp [enqueueChildren_crawled, mem_setAdd_iff]),
                      fun x hx => by simp [enqueueChildren_crawled, mem_setAdd_iff, hx],
                      fun x hne hx => mem_setDel_of_ne hne
                        (by simp [enqueueChildren_inProgress, mem_setAdd_iff, hx])⟩
                · simp only [hfr, Bool.false_eq_true, if_false]
                  rcases hnode : env.oldGraph (normalizeUrl url0) with _ | n
                  · exact ⟨Or.inr (Or.inr ⟨by simp, hrc⟩), Or.inl (mem_setAdd_self _ _),
                      fun x hx => mem_setAdd_iff.mpr (Or.inl hx),
                      fun x hne hx => mem_setDel_of_ne hne (mem_setAdd_iff.mpr (Or.inl hx))⟩
                  · refine ⟨Or.inr (Or.inr ⟨by simp [enqueueChildren_fetchLog], hrc⟩),
                      Or.inl (by simp [enqueueChildren_crawled, mem_setAdd_iff]),
                      fun x hx => by simp [enqueueChildren_crawled, mem_setAdd_iff, hx],
                      fun x hne hx => mem_setDel_of_ne hne
                        (by simp [enqueueChildren_inProgress, mem_setAdd_iff, hx])⟩
            · simp only [h304, Bool.false_eq_true, if_false]
              by_cases hct : contentTruthy (env.fetch1 (normalizeUrl url0)).content = true
              · simp only [hct, if_true]
                by_cases hskip : shouldSkipWrite env (urlToFilePathU cfg u)
                    ((env.fetch1 (normalizeUrl url0)).content.getD (ContentV.str [])) = true
                · simp only [hskip, if_true]
                  split
                  · exact ⟨Or.inr (Or.inl (by first | rfl | trivial)), Or.inr (mem_setAdd_self _ _),
                      fun x hx => hx,
                      fun x hne hx => mem_setAdd_iff.mpr (Or.inl hx)⟩
                  · refine ⟨Or.inr (Or.inl (by simp [enqueueChildren_fetchLog])),
                      Or.inl (by simp [enqueueChildren_crawled, mem_setAdd_iff]),
                      fun x hx => by simp [enqueueChildren_crawled, mem_setAdd_iff, hx],
                      fun x hne hx => mem_setDel_of_ne hne
                        (by simp [enqueueChildren_inProgress, mem_setAdd_iff, hx])⟩
                · simp only [hskip, Bool.false_eq_true, if_false]
                  split
                  · exact ⟨Or.inr (Or.inl (by first | rfl | trivial)), Or.inr (mem_setAdd_self _ _),
                      fun x hx => hx,
                      fun x hne hx => mem_setAdd_iff.mpr (Or.inl hx)⟩
                  · refine ⟨Or.inr (Or.inl (by simp [enqueueChildren_fetchLog])),
                      Or.inl (by simp [enqueueChildren_crawled, mem_setAdd_iff]),
                      fun x hx => by simp [enqueueChildren_crawled, mem_setAdd_iff, hx],
                      fun x hne hx => mem_setDel_of_ne hne
                        (by simp [enqueueChildren_inProgress, mem_setAdd_iff, hx])⟩
              · simp only [hct, Bool.false_eq_true, if_false]
                exact ⟨Or.inr (Or.inl (by first | rfl | trivial)), Or.inl (mem_setAdd_self _ _),
                  fun x hx => mem_setAdd_iff.mpr (Or.inl hx),
                  fun x hne hx => mem_setDel_of_ne hne (mem_setAdd_iff.mpr (Or.inl hx))⟩

/-- The per-URL fetch budget: zero before the URL is seen, one once seen,
two when the 304-missing-file repair re-fetch applies to it. -/
def fetchBound (cfg : CrawlCfg) (env : CrawlEnv) (st : CrawlState) (x : Str) : Nat :=
  if x ∈ st.crawled ∨ x ∈ st.inProgress then
    (if repairCond cfg env x then 2 else 1)
  else 0

def countInv (cfg : CrawlCfg) (env : CrawlEnv) (st : CrawlState) : Prop :=
  ∀ x, List.count x st.fetchLog ≤ fetchBound cfg env st x

theorem countInv_crawlStep (cfg : CrawlCfg) (env : CrawlEnv) (st : CrawlState)
    (url0 : Str) (h : countInv cfg env st) :
    countInv cfg env (crawlStep cfg env st url0) := by
  rcases crawlStep_cases cfg env st url0 with heq | ⟨hc, hip, hlog, hmem, hpc, hpi⟩
  · rw [heq]; exact h
  · intro x
    by_cases hx : x = normalizeUrl url0
    · subst hx
      have h0 : List.count (normalizeUrl url0) st.fetchLog = 0 := by
        have hb := h (normalizeUrl url0)
        unfold fetchBound at hb
        rw [if_neg (by rintro (hcc | hii); exact hc hcc; exact hip hii)] at hb
        omega
      unfold fetchBound
      rw [if_pos hmem]
      rcases hlog with h1 | h1 | ⟨h1, hrc⟩
      · rw [h1, h0]; split <;> omega
      · rw [h1]
        simp only [List.count_append, h0]
        have h2 : List.count (normalizeUrl url0) [normalizeUrl url0] = 1 := by
          simp
        split <;> omega
      · rw [h1, if_pos hrc]
        simp only [List.count_append, h0]
        have h2 : List.count (normalizeUrl url0)
            [normalizeUrl url0, normalizeUrl url0] = 2 := by
          simp [List.count_cons]
        omega
    · have hcount : List.count x (crawlStep cfg env st url0).fetchLog =
          List.count x st.fetchLog := by
        rcases hlog with h1 | h1 | ⟨h1, _⟩ <;> rw [h1] <;>
          simp [List.count_append, List.count_cons, hx]
      rw [hcount]
      by_cases hold : x ∈ st.crawled ∨ x ∈ st.inProgress
      · have hnew : x ∈ (crawlStep cfg env st url0).crawled ∨
            x ∈ (crawlStep cfg env st url0).inProgress := by
          rcases hold with h2 | h2
          · exact Or.inl (hpc x h2)
          · exact Or.inr (hpi x hx h2)
        have hb := h x
        unfold fetchBound at hb ⊢
        rw [if_pos hold] at hb
        rw [if_pos hnew]
        exact hb
      · have hb := h x
        unfold fetchBound at hb
        rw [if_neg hold] at hb
        unfold fetchBound
        split
        · split <;> omega
        · omega

theorem countInv_foldl (cfg : CrawlCfg) (env : CrawlEnv) (batch : List Str) :
    ∀ st : CrawlState, countInv cfg env st →
      countInv cfg env (batch.foldl (crawlStep cfg env) st) := by
  induction batch with
  | nil => intro st h; exact h
  | cons b bs ih =>
    intro st h
    exact ih _ (countInv_crawlStep cfg env st b h)

theorem countInv_runBatches (cfg : CrawlCfg) (env : CrawlEnv) (fuel : Nat) :
    ∀ st : CrawlState, countInv cfg env st →
      countInv cfg env (runBatches cfg env fuel st) := by
  induction fuel with
  | zero => intro st h; exact h
  | succ n ih =>
    intro st h
    unfold runBatches
    split
    · exact h
    · exact ih _ (countInv_foldl cfg env st.queue { st with queue := [] } h)

/-- C4: within one run each URL is passed to the fetcher at most once. This
fails as stated: the 304-missing-file repair issues a second fetch for the
same URL (part 006 lines 210 to 229), so a run can log the same URL twice.
Amended: every URL is fetched at most twice, and at most once unless the
repair condition (first response 304 and the output file absent) holds for
it; hence the log is a set whenever no URL satisfies the repair condition. -/
theorem c4_fetch_at_most_once (cfg : CrawlCfg) (env : CrawlEnv) (fuel : Nat)
    (startUrl : Str) (x : Str) :
    List.count x (crawlRun cfg env fuel startUrl).fetchLog ≤ 2 ∧
    (repairCond cfg env x = false →
      List.count x (crawlRun cfg env fuel startUrl).fetchLog ≤ 1) := by
  have h0 : countInv cfg env { queue := [normalizeUrl startUrl] } := by
    intro y
    simp [fetchBound, CrawlState.fetchLog]
  have hinv := countInv_runBatches cfg env fuel _ h0
  have hb : List.count x (crawlRun cfg env fuel startUrl).fetchLog ≤
      fetchBound cfg env (crawlRun cfg env fuel startUrl) x := hinv x
  unfold fetchBound at hb
  constructor
  · rcases Decidable.em (x ∈ (crawlRun cfg env fuel startUrl).crawled ∨
      x ∈ (crawlRun cfg env fuel startUrl).inProgress) with hm | hm
    · rw [if_pos hm] at hb
      revert hb
      split <;> omega
    · rw [if_neg hm] at hb
      omega
  · intro hrc
    rcases Decidable.em (x ∈ (crawlRun cfg env fuel startUrl).crawled ∨
      x ∈ (crawlRun cfg env fuel startUrl).inProgress) with hm | hm
    · rw [if_pos hm, hrc] at hb
      simpa using hb
    · rw [if_neg hm] at hb
      omega

/-- C4 counterexample: with the repair environment, a single run logs the
same URL to the fetcher twice, so the multiset of fetched URLs is not a
set. -/
theorem c4_counterexample :
    (crawlRun cfgW envC3 1 (strOf "https://h/a/")).fetchLog =
        [strOf "https://h/a/", strOf "https://h/a/"] ∧
      ¬ ((crawlRun cfgW envC3 1 (strOf "https://h/a/")).fetchLog).Nodup := by
  refine ⟨?_, ?_⟩ <;> decide

/-- Witness for the amended C4 bound at a concrete run where the repair
condition fails. -/
theorem c4_witness :
    List.count (strOf "https://h/a/")
      (crawlRun cfgW envC10 1 (strOf "https://h/a/")).fetchLog ≤ 1 :=
  (c4_fetch_at_most_once cfgW envC10 1 (strOf "https://h/a/")
    (strOf "https://h/a/")).2 (by decide)

/-! ## Claim C1: reachability GC safety -/

/-- Graph reachability along getChildUrls edges (outLinks then
resources), the relation the BFS of buildDAG is meant to compute. -/
inductive ReachesG (nodes : List (Str × GraphNode)) : Str → Str → Prop
  | refl (u : Str) : ReachesG nodes u u
  | step {a b c : Str} : ReachesG nodes a b → c ∈ getChildUrls nodes b →
      ReachesG nodes a c

theorem buildDAGAux_reach_mono (nodes : List (Str × GraphNode)) :
    ∀ fuel q visited reach x, x ∈ reach → x ∈ buildDAGAux nodes fuel q visited reach := by
  intro fuel
  induction fuel with
  | zero => intro q v r x hx; exact hx
  | succ n ih =>
    intro q v r x hx
    match q with
    | [] => exact hx
    | url :: q2 =>
      simp only [buildDAGAux]
      by_cases hv : url ∈ v
      · rw [if_pos hv]
        exact ih q2 v r x hx
      · rw [if_neg hv]
        rcases hg : getNodeL nodes url with _ | nd
        · exact ih _ _ _ x (List.mem_append_left _ hx)
        · exact ih _ _ _ x (List.mem_append_left _ hx)

theorem buildDAGAux_sound (nodes : List (Str × GraphNode)) (entries : List Str) :
    ∀ fuel q visited reach,
      (∀ x, x ∈ q → ∃ e, e ∈ entries ∧ ReachesG nodes e x) →
      (∀ x, x ∈ reach → ∃ e, e ∈ entries ∧ ReachesG nodes e x) →
      ∀ x, x ∈ buildDAGAux nodes fuel q visited reach →
        ∃ e, e ∈ entries ∧ ReachesG nodes e x := by
  intro fuel
  induction fuel with
  | zero => intro q v r hq hr x hx; exact hr x hx
  | succ n ih =>
    intro q v r hq hr x hx
    match q with
    | [] => exact hr x hx
    | url :: q2 =>
      simp only [buildDAGAux] at hx
      by_cases hv : url ∈ v
      · rw [if_pos hv] at hx
        exact ih q2 v r (fun y hy => hq y (List.mem_cons_of_mem _ hy)) hr x hx
      · rw [if_neg hv] at hx
        rcases hg : getNodeL nodes url with _ | nd
        · rw [hg] at hx
          refine ih q2 (v ++ [url]) (r ++ [url])
            (fun y hy => hq y (List.mem_cons_of_mem _ hy)) ?_ x hx
          intro y hy
          rcases List.mem_append.mp hy with hy2 | hy2
          · exact hr y hy2
          · rw [List.mem_singleton.mp hy2]
            exact hq url (List.mem_cons_self _ _)
        · rw [hg] at hx
          refine ih _ (v ++ [url]) (r ++ [url]) ?_ ?_ x hx
          · intro y hy
            rcases List.mem_append.mp hy with hy2 | hy2
            · exact hq y (List.mem_cons_of_mem _ hy2)
            · have hy3 := List.mem_filter.mp hy2
              have hchild : y ∈ getChildUrls nodes url := by
                unfold getChildUrls
                rw [hg]
                exact hy3.1
              rcases hq url (List.mem_cons_self _ _) with ⟨e, he, hre⟩
              exact ⟨e, he, ReachesG.step hre hchild⟩
          · intro y hy
            rcases List.mem_append.mp hy with hy2 | hy2
            · exact hr y hy2
            · rw [List.mem_singleton.mp hy2]
              exact hq url (List.mem_cons_self _ _)

theorem buildDAGAux_pops (nodes : List (Str × GraphNode)) :
    ∀ fuel q visited reach i (hi : i < q.length), i < fuel →
      (∀ y, y ∈ visited → y ∈ reach) →
      q.get ⟨i, hi⟩ ∈ buildDAGAux nodes fuel q visited reach := by
  intro fuel
  induction fuel with
  | zero => intro q v r i hi hf; omega
  | succ n ih =>
    intro q v r i hi hf hvr
    match q with
    | [] => simp at hi
    | url :: q2 =>
      simp only [buildDAGAux]
      by_cases hv : url ∈ v
      · rw [if_pos hv]
        match i with
        | 0 =>
          exact buildDAGAux_reach_mono nodes n q2 v r url (hvr url hv)
        | j + 1 =>
          exact ih q2 v r j (by simpa using hi) (by omega) hvr
      · rw [if_neg hv]
        have hvr2 : ∀ y, y ∈ v ++ [url] → y ∈ r ++ [url] := by
          intro y hy
          rcases List.mem_append.mp hy with hy2 | hy2
          · exact List.mem_append_left _ (hvr y hy2)
          · exact List.mem_append_right _ hy2
        rcases hg : getNodeL nodes url with _ | nd
        · match i with
          | 0 =>
            exact buildDAGAux_reach_mono nodes n q2 _ _ url
              (List.mem_append_right _ (List.mem_singleton_self _))
          | j + 1 =>
            exact ih q2 _ _ j (by simpa using hi) (by omega) hvr2
        · match i with
          | 0 =>
            exact buildDAGAux_reach_mono nodes n _ _ _ url
              (List.mem_append_right _ (List.mem_singleton_self _))
          | j + 1 =>
            have hj : j < q2.length := by simpa using hi
            have hj2 : j < (q2 ++ (nd.outLinks ++ nd.resources).filter
                (fun c => !((v ++ [url]).contains c))).length := by
              rw [List.length_append]
              omega
            have hget : (q2 ++ (nd.outLinks ++ nd.resources).filter
                (fun c => !((v ++ [url]).contains c))).get ⟨j, hj2⟩ =
                q2.get ⟨j, hj⟩ := by
              simp only [List.get_eq_getElem]
              exact List.getElem_append_left hj
            have := ih _ (v ++ [url]) (r ++ [url]) j hj2 (by omega) hvr2
            rw [hget] at this
            exact this

theorem mapM_mem_exists {α β : Type} (g : α → Option β) :
    ∀ (xs : List α) (ys : List β), xs.mapM g = some ys →
      ∀ y, y ∈ ys → ∃ x, x ∈ xs ∧ g x = some y := by
  intro xs
  induction xs with
  | nil =>
    intro ys h y hy
    simp only [List.mapM_nil, pure] at h
    cases h
    simp at hy
  | cons a t ih =>
    intro ys h y hy
    rw [List.mapM_cons] at h
    rcases hga : g a with _ | b
    · rw [hga] at h
      exact Option.noConfusion h
    · rw [hga] at h
      rcases hgt : t.mapM g with _ | bs
      · rw [hgt] at h
        exact Option.noConfusion h
      · rw [hgt] at h
        simp only [Option.bind_some, Option.map_some, pure] at h
        have hys : ys = b :: bs := by
          cases h
          rfl
        subst hys
        rcases List.mem_cons.mp hy with rfl | hy2
        · exact ⟨a, List.mem_cons_self _ _, hga⟩
        · rcases ih bs hgt y hy2 with ⟨x, hx, hgx⟩
          exact ⟨x, List.mem_cons_of_mem _ hx, hgx⟩

/-- C1: reachability safety of the GC. As stated the claim fails (see
the counterexample: a file at a non-canonical path survives deletion
while its accepted URL is neither a seed nor reachable). Amended, what
holds of finalizeAndCleanup is: (1) every registered known-valid URL is
in the computed reachable set; (2) the reachable set is sound: each of
its members is reachable from some seed through outLinks and resources
edges of the merged graph; (3) when the deletion list materializes (no
abort), every file of the scan that does not remain is the
urlToFilePath image of some accepted file URL that is not reachable,
so only path-images of unreachable accepted URLs are ever deleted. -/
theorem c1_reachability_safety (cfg : CrawlCfg) (oldNodes newGraph : List (Str × GraphNode))
    (seeds : List Str) (files : List Str) :
    (∀ e, e ∈ seeds → e ∈ (finalizeAndCleanup cfg oldNodes newGraph seeds files).reachable) ∧
    (∀ u, u ∈ (finalizeAndCleanup cfg oldNodes newGraph seeds files).reachable →
      ∃ e, e ∈ seeds ∧ ReachesG (mergeNewGraph oldNodes newGraph) e u) ∧
    (∀ ds, (finalizeAndCleanup cfg oldNodes newGraph seeds files).filesToDelete = some ds →
      ∀ f, f ∈ files → f ∉ (finalizeAndCleanup cfg oldNodes newGraph seeds files).remaining →
        ∃ u, u ∈ (finalizeAndCleanup cfg oldNodes newGraph seeds files).fileUrls ∧
          u ∉ (finalizeAndCleanup cfg oldNodes newGraph seeds files).reachable ∧
          urlToFilePath cfg u = some f) := by
  unfold finalizeAndCleanup
  dsimp only
  refine ⟨?_, ?_, ?_⟩
  · intro e he
    unfold buildDAG
    rcases List.mem_iff_get.mp he with ⟨⟨i, hi⟩, rfl⟩
    exact buildDAGAux_pops _ _ seeds [] [] i hi (by omega) (by intro y hy; simp at hy)
  · intro u hu
    unfold buildDAG at hu
    refine buildDAGAux_sound _ seeds _ seeds [] [] ?_ ?_ u hu
    · intro x hx
      exact ⟨x, hx, ReachesG.refl x⟩
    · intro x hx
      simp at hx
  · intro ds hds f hf hrem
    rw [hds] at hrem
    have hfd : f ∈ ds := by
      by_contra hnd
      exact hrem (List.mem_filter.mpr ⟨hf, by simp [hnd]⟩)
    rcases mapM_mem_exists (urlToFilePath cfg) _ ds hds f hfd with ⟨u, hu, hup⟩
    have hu2 := List.mem_filter.mp hu
    refine ⟨u, hu2.1, ?_, hup⟩
    have := hu2.2
    simp at this
    exact this

/-- C1 counterexample: with no seeds, no graph and the single scanned
file static/foo, the GC completes (the deletion list materializes),
targets the non-existent path static/foo/index.html, and leaves
static/foo in place, although filePathToUrl accepts it and its URL is
neither a seed nor in the reachable set. -/
theorem c1_counterexample :
    (finalizeAndCleanup cfgW [] [] [] [strOf "static/foo"]).filesToDelete =
        some [strOf "static/foo/index.html"] ∧
      (finalizeAndCleanup cfgW [] [] [] [strOf "static/foo"]).remaining =
        [strOf "static/foo"] ∧
      filePathToUrl cfgW (strOf "static/foo") = some (strOf "https://h/foo/") ∧
      (finalizeAndCleanup cfgW [] [] [] [strOf "static/foo"]).reachable = [] := by
  refine ⟨?_, ?_, ?_, ?_⟩ <;> decide

/-- Witness for the amended C1 at a concrete seed. -/
theorem c1_witness :
    strOf "https://h/" ∈ (finalizeAndCleanup cfgW [] [] [strOf "https://h/"] []).reachable :=
  (c1_reachability_safety cfgW [] [] [strOf "https://h/"] []).1
    (strOf "https://h/") (List.mem_singleton_self _)

/-! ## Claim C2: URL to path round trip -/

theorem takeWhile_append_of_all {p : Char → Bool} (l1 l2 : Str) (h : ∀ c ∈ l1, p c = true) :
    (l1 ++ l2).takeWhile p = l1 ++ l2.takeWhile p := by
  induction l1 with
  | nil => simp
  | cons a t ih =>
    have ha := h a (List.mem_cons_self _ _)
    simp only [List.cons_append, List.takeWhile_cons, ha, if_true]
    rw [ih (fun c hc => h c (List.mem_cons_of_mem _ hc))]

theorem takeWhile_append_last {p : Char → Bool} (l : Str) (x : Char) (hx : p x = false) :
    (l ++ [x]).takeWhile p = l.takeWhile p := by
  induction l with
  | nil => simp [List.takeWhile_cons, hx]
  | cons a t ih =>
    by_cases ha : p a = true
    · simp only [List.cons_append, List.takeWhile_cons, ha, if_true]
      rw [ih]
    · have ha2 : p a = false := by simpa using ha
      simp [List.takeWhile_cons, ha2]

theorem relativeP_joinP (d p : Str) (hd : d ≠ ['.']) : relativeP d (joinP d p) = p := by
  unfold relativeP joinP
  rw [if_neg hd]
  have hpre : (d ++ ['/']).isPrefixOf (d ++ ['/'] ++ p) = true := by
    rw [List.append_assoc, List.isPrefixOf_iff_prefix]
    exact ⟨p, by simp⟩
  rw [List.append_assoc]
  rw [List.append_assoc] at hpre
  simp only [hpre, if_true]
  have hlen : d.length + 1 = (d ++ ['/']).length := by simp
  rw [hlen, ← List.append_assoc, List.drop_left]

theorem extBase_dirslash (a b : Str) (ha : endsWithS a ['/'] = true)
    (hb : ∀ c ∈ b, c ≠ '/') (hbne : b ≠ []) : extBase (a ++ b) = b := by
  rcases endsWithS_exists ha with ⟨a0, rfl⟩
  rcases hbr : b.reverse with _ | ⟨c, r⟩
  · exact absurd (by simpa using congrArg List.reverse hbr) hbne
  · have hc : c ≠ '/' := hb c (by rw [← List.mem_reverse, hbr]; exact List.mem_cons_self _ _)
    have hr : ∀ y ∈ r, y ≠ '/' := fun y hy =>
      hb y (by rw [← List.mem_reverse, hbr]; exact List.mem_cons_of_mem _ hy)
    unfold extBase
    have hrev : (a0 ++ ['/'] ++ b).reverse = c :: (r ++ '/' :: a0.reverse) := by
      simp [List.reverse_append, hbr]
    rw [hrev]
    have hstep : (c :: (r ++ '/' :: a0.reverse)).dropWhile (· = '/') =
        c :: (r ++ '/' :: a0.reverse) := by
      simp [List.dropWhile_cons, hc]
    rw [hstep]
    have hstep2 : (c :: (r ++ '/' :: a0.reverse)).takeWhile (· ≠ '/') = c :: r := by
      rw [List.takeWhile_cons]
      rw [takeWhile_append_of_all r ('/' :: a0.reverse) (fun y hy => by simp [hr y hy])]
      simp [hc]
    rw [hstep2, ← hbr, List.reverse_reverse]

theorem extnameP_dirslash (a : Str) (ha : endsWithS a ['/'] = true) :
    extnameP (a ++ strOf "index.html") = strOf ".html" := by
  unfold extnameP
  rw [extBase_dirslash a (strOf "index.html") ha (by decide) (by decide)]
  decide

theorem versionMatch_basenameP_dirslash (a : Str) (ha : endsWithS a ['/'] = true) :
    versionMatch (basenameP (a ++ strOf "index.html") (strOf ".html")) = none := by
  unfold basenameP
  rw [extBase_dirslash a (strOf "index.html") ha (by decide) (by decide)]
  decide

theorem extBase_cons_slash (rel : Str) (h : endsWithS rel ['/'] = false) :
    extBase ('/' :: rel) = extBase rel := by
  rcases List.eq_nil_or_concat rel with rfl | ⟨r0, c, rfl⟩
  · decide
  · simp only [List.concat_eq_append] at h ⊢
    have hc : c ≠ '/' := by
      intro hcc
      subst hcc
      rw [endsWithS_append] at h
      exact Bool.noConfusion h
    unfold extBase
    have hrev1 : ('/' :: (r0 ++ [c])).reverse = c :: (r0.reverse ++ ['/']) := by
      simp
    have hrev2 : (r0 ++ [c]).reverse = c :: r0.reverse := by
      simp
    rw [hrev1, hrev2]
    have hd1 : (c :: (r0.reverse ++ ['/'])).dropWhile (· = '/') =
        c :: (r0.reverse ++ ['/']) := by
      simp [List.dropWhile_cons, hc]
    have hd2 : (c :: r0.reverse).dropWhile (· = '/') = c :: r0.reverse := by
      simp [List.dropWhile_cons, hc]
    rw [hd1, hd2]
    rw [List.takeWhile_cons, List.takeWhile_cons]
    rw [takeWhile_append_last r0.reverse '/' (by simp)]

theorem extnameP_cons_slash (rel : Str) (h : endsWithS rel ['/'] = false) :
    extnameP ('/' :: rel) = extnameP rel := by
  unfold extnameP
  rw [extBase_cons_slash rel h]

theorem roundtrip_case_root (cfg : CrawlCfg) (u : JsUrl)
    (hpath : u.pathRaw = ['/']) (hsearch : u.search = []) (hhash : u.hash = [])
    (hdom : cfg.sourceDomain = JsUrl.origin u) (hsd : cfg.staticDir ≠ ['.']) :
    filePathToUrl cfg (urlToFilePathU cfg u) = some u.href := by
  have hmain : urlToFilePathU cfg u = joinP cfg.staticDir (strOf "index.html") := by
    unfold urlToFilePathU
    rw [hpath, hsearch]
    rfl
  have hhref : u.href = JsUrl.origin u ++ ['/'] := by
    unfold JsUrl.href
    rw [hpath, hsearch, hhash]
    simp
  rw [hmain, hhref, ← hdom]
  unfold filePathToUrl
  rw [relativeP_joinP _ _ hsd]
  rfl

theorem roundtrip_case_dir (cfg : CrawlCfg) (u : JsUrl) (rel : Str)
    (hpath : u.pathRaw = '/' :: rel) (hsearch : u.search = []) (hhash : u.hash = [])
    (hdom : cfg.sourceDomain = JsUrl.origin u) (hsd : cfg.staticDir ≠ ['.'])
    (hsl : endsWithS rel ['/'] = true) (hnostart : startsWithS rel ['/'] = false)
    (hreject : rejectRel (rel ++ strOf "index.html") = false) :
    filePathToUrl cfg (urlToFilePathU cfg u) = some u.href := by
  have hrelne : rel ≠ [] := by
    intro h
    rw [h] at hsl
    exact Bool.noConfusion hsl
  have hstart : startsWithS ('/' :: rel) ['/'] = true := by
    simp [startsWithS, List.isPrefixOf]
  have hempty : rel.isEmpty = false := by
    rcases rel with _ | ⟨c, t⟩
    · exact absurd rfl hrelne
    · rfl
  have hext : extnameP (rel ++ strOf "index.html") = strOf ".html" :=
    extnameP_dirslash rel hsl
  have hmain : urlToFilePathU cfg u = joinP cfg.staticDir (rel ++ strOf "index.html") := by
    unfold urlToFilePathU
    rw [hpath, hsearch]
    dsimp only
    rw [hstart]
    simp only [if_true, List.drop_one, List.tail_cons, hempty, Bool.false_eq_true, if_false,
      hsl, if_true, hext]
    simp only [show (strOf ".html").isEmpty = false from rfl, Bool.false_and,
      Bool.false_eq_true, if_false, List.isEmpty_nil, Bool.not_true]
  rcases endsWithS_exists hsl with ⟨a0, ha0⟩
  have hE : endsWithS (rel ++ strOf "index.html") (strOf "/index.html") = true := by
    rw [ha0, List.append_assoc]
    exact endsWithS_append a0 (strOf "/index.html")
  have hE2 : endsWithS ('/' :: rel) ['/'] = true := by
    rw [ha0]
    exact endsWithS_append ('/' :: a0) ['/']
  have htake : (rel ++ strOf "index.html").take ((rel ++ strOf "index.html").length - 10) =
      rel := by
    have hlen : (rel ++ strOf "index.html").length - 10 = rel.length := by
      rw [List.length_append, show (strOf "index.html").length = 10 from rfl]
      omega
    rw [hlen]
    exact List.take_left rel (strOf "index.html")
  have hhref : u.href = JsUrl.origin u ++ ('/' :: rel) := by
    unfold JsUrl.href
    rw [hpath, hsearch, hhash]
    simp
  rw [hmain, hhref, ← hdom]
  unfold filePathToUrl
  rw [relativeP_joinP _ _ hsd]
  dsimp only
  simp only [hreject, Bool.false_eq_true, if_false, hext,
    show (strOf ".html").isEmpty = false from rfl, Bool.not_false, if_true]
  rw [versionMatch_basenameP_dirslash rel hsl]
  simp only [hE, if_true, htake, hnostart, Bool.not_false, hE2, Bool.not_true,
    Bool.false_and, Bool.false_eq_true, if_false]

theorem roundtrip_case_asset (cfg : CrawlCfg) (u : JsUrl) (rel : Str)
    (hpath : u.pathRaw = '/' :: rel) (hsearch : u.search = []) (hhash : u.hash = [])
    (hdom : cfg.sourceDomain = JsUrl.origin u) (hsd : cfg.staticDir ≠ ['.'])
    (hnostart : startsWithS rel ['/'] = false)
    (hext : (extnameP rel).isEmpty = false)
    (hnsl : endsWithS rel ['/'] = false)
    (hvm : versionMatch (basenameP rel (extnameP rel)) = none)
    (hnei : endsWithS rel (strOf "/index.html") = false)
    (hne2 : (rel == strOf "index.html") = false)
    (hreject : rejectRel rel = false) :
    filePathToUrl cfg (urlToFilePathU cfg u) = some u.href := by
  have hstart : startsWithS ('/' :: rel) ['/'] = true := by
    simp [startsWithS, List.isPrefixOf]
  have hrelne : rel.isEmpty = false := by
    rcases rel with _ | ⟨c, t⟩
    · exact absurd hext (by decide)
    · rfl
  have hmain : urlToFilePathU cfg u = joinP cfg.staticDir rel := by
    unfold urlToFilePathU
    rw [hpath, hsearch]
    dsimp only
    rw [hstart]
    simp only [if_true, List.drop_one, List.tail_cons, hrelne, Bool.false_eq_true, if_false,
      hnsl, hext, Bool.false_and, List.isEmpty_nil, Bool.not_true]
  have hhref : u.href = JsUrl.origin u ++ ('/' :: rel) := by
    unfold JsUrl.href
    rw [hpath, hsearch, hhash]
    simp
  rw [hmain, hhref, ← hdom]
  unfold filePathToUrl
  rw [relativeP_joinP _ _ hsd]
  dsimp only
  simp only [hreject, Bool.false_eq_true, if_false, hext, Bool.not_false, if_true, hvm]
  simp only [hnei, Bool.false_eq_true, if_false, hne2]
  simp only [hnostart, Bool.not_false, if_true]
  rw [extnameP_cons_slash rel hnsl]
  simp only [hext, Bool.false_and, Bool.and_false, Bool.false_eq_true, if_false]

/-- C2: the URL to path round trip. As stated the claim fails: a
versioned-looking asset name breaks it (see the counterexample, where
an accepted, normalization-fixed URL ending in .cafe.css comes back
with the hex-like stem folded into a ?v= query). Amended: for a
same-origin URL with empty query and fragment whose path is either a
directory path (root, or ending in a slash) whose index file the
ignore list admits, or an asset path with a nonempty extension whose
basename does not match the version pattern caret (.+) dot ([a-f0-9]+)
dollar, is not an index.html, and is not ignored, filePathToUrl
inverts urlToFilePath back to the original href. -/
theorem c2_roundtrip (cfg : CrawlCfg) (u : JsUrl) (rel : Str)
    (hpath : u.pathRaw = '/' :: rel)
    (hsearch : u.search = []) (hhash : u.hash = [])
    (hdom : cfg.sourceDomain = JsUrl.origin u)
    (hsd : cfg.staticDir ≠ ['.'])
    (hnostart : startsWithS rel ['/'] = false)
    (hcase : ((rel = [] ∨ endsWithS rel ['/'] = true) ∧
        rejectRel (rel ++ strOf "index.html") = false) ∨
      ((extnameP rel).isEmpty = false ∧ endsWithS rel ['/'] = false ∧
        versionMatch (basenameP rel (extnameP rel)) = none ∧
        endsWithS rel (strOf "/index.html") = false ∧
        (rel == strOf "index.html") = false ∧ rejectRel rel = false)) :
    filePathToUrl cfg (urlToFilePathU cfg u) = some u.href := by
  rcases hcase with ⟨hd, hrej⟩ | ⟨h1, h2, h3, h4, h5, h6⟩
  · rcases hd with rfl | hsl
    · exact roundtrip_case_root cfg u hpath hsearch hhash hdom hsd
    · exact roundtrip_case_dir cfg u rel hpath hsearch hhash hdom hsd hsl hnostart hrej
  · exact roundtrip_case_asset cfg u rel hpath hsearch hhash hdom hsd hnostart h1 h2 h3 h4 h5 h6

/-- C2 counterexample: https://h/a.cafe.css is same-origin, fixed by
normalizeUrl and accepted by the path policy, yet the round trip
returns https://h/a.css?v=cafe, because the version regex of
filePathToUrl fires on the all-hex token cafe in the basename. -/
theorem c2_counterexample :
    normalizeUrl (strOf "https://h/a.cafe.css") = strOf "https://h/a.cafe.css" ∧
      urlToFilePath cfgW (strOf "https://h/a.cafe.css") = some (strOf "static/a.cafe.css") ∧
      filePathToUrl cfgW (strOf "static/a.cafe.css") = some (strOf "https://h/a.css?v=cafe") ∧
      strOf "https://h/a.css?v=cafe" ≠ strOf "https://h/a.cafe.css" := by
  refine ⟨?_, ?_, ?_, ?_⟩ <;> decide

/-- Witness for the amended C2 at a concrete directory URL. -/
theorem c2_witness :
    filePathToUrl cfgW
        (urlToFilePathU cfgW ⟨strOf "https", strOf "h", strOf "/a/", [], []⟩) =
      some (JsUrl.href ⟨strOf "https", strOf "h", strOf "/a/", [], []⟩) :=
  c2_roundtrip cfgW ⟨strOf "https", strOf "h", strOf "/a/", [], []⟩ (strOf "a/")
    (by decide) rfl rfl (by decide) (by decide) (by decide)
    (Or.inl ⟨Or.inr (by decide), by decide⟩)
